import Mathlib

/- Verification of farmit (src/farmit/__init__.py): version bumping,
   commit-message normalization, changelog entry building, idempotent
   changelog merging, and the orchestration skeleton (exit codes and
   effect traces).

   Python `str` values that undergo character-level processing are
   modelled as `List Char`; Python `bytes` as `List UInt8`; a Python
   function that can raise returns an `Option`/pair instead. -/

/-- The `{major}.{minor}.{micro}` slice of `packaging.version.Version`
(imported in the source as `setuptools_scm.Version`). -/
structure SemVer where
  major : Nat
  minor : Nat
  micro : Nat
deriving DecidableEq

/-- Split a character list at every occurrence of `sep`; models Python
`str.split(sep)` (always returns at least one piece). -/
def splitOnChar (sep : Char) : List Char → List (List Char)
  | [] => [[]]
  | c :: rest =>
    match splitOnChar sep rest with
    | [] => [[c]]
    | h :: t => if c == sep then [] :: h :: t else (c :: h) :: t

/-- Parse a digit string to a number; `none` when empty or non-numeric.
Models `int(...)` applied to one dotted release component. -/
def charsToNat? (l : List Char) : Option Nat :=
  if !l.isEmpty && l.all Char.isDigit then
    some (l.foldl (fun n c => n * 10 + (c.toNat - '0'.toNat)) 0)
  else
    none

/-- Parse a version string as `packaging.version.Version` does for plain
dotted-numeric releases: every dot-separated component must be numeric,
missing minor/micro components default to `0`.  Any other string is
unparseable (`InvalidVersion` in the source), modelled as `none`. -/
def parseVersion (s : String) : Option SemVer :=
  match (splitOnChar '.' s.data).mapM charsToNat? with
  | some ns => some ⟨ns.getD 0 0, ns.getD 1 0, ns.getD 2 0⟩
  | none => none

/-- Render a `SemVer` as `"{major}.{minor}.{micro}"`. -/
def SemVer.render (v : SemVer) : String :=
  toString v.major ++ "." ++ toString v.minor ++ "." ++ toString v.micro

/-- `get_next_release` (source lines 203-224).  `release` is the
positional CLI argument, `last_release` the current release tag or
`None`.  `none` as a result models the `InvalidVersion` exception
raised by `Version(last_release)`.  Note that Python's
`if not last_release` also treats the empty string as absent. -/
def get_next_release (release : String) (last_release : Option String) :
    Option String :=
  let parsed : Option SemVer :=
    match last_release with
    | none => some ⟨0, 0, 0⟩
    | some s => if s = "" then some ⟨0, 0, 0⟩ else parseVersion s
  match parsed with
  | none => none
  | some version =>
    if release = "major" then
      some (SemVer.render ⟨version.major + 1, 0, 0⟩)
    else if release = "minor" then
      some (SemVer.render ⟨version.major, version.minor + 1, 0⟩)
    else if release = "micro" then
      some (SemVer.render ⟨version.major, version.minor, version.micro + 1⟩)
    else
      some release

/-- UTF-8 encoding of a character sequence; models Python
`str.encode('utf8')`. -/
def utf8Encode (l : List Char) : List UInt8 :=
  l.flatMap String.utf8EncodeChar

/-- The text up to the first newline; models `entry.split('\n')[0]`. -/
def firstLine (l : List Char) : List Char :=
  l.takeWhile (fun c => c != '\n')

/-- Does `pat` occur contiguously anywhere in the byte sequence?
Models Python's `pat in content` on `bytes`. -/
def hasInfixBytes (pat : List UInt8) : List UInt8 → Bool
  | [] => pat.isEmpty
  | c :: rest => pat.isPrefixOf (c :: rest) || hasInfixBytes pat rest

/-- `update_changelog` (source lines 227-247).  `content` is the byte
content of CHANGELOG.md (`none` when the file does not exist, which the
source replaces by `b''`), `entry` the new entry text.  Returns the
bytes left in the file and whether the entry's header line was already
present (the `else` branch, which leaves the file untouched). -/
def update_changelog (content : Option (List UInt8)) (entry : List Char) :
    List UInt8 × Bool :=
  let c := content.getD []
  if hasInfixBytes (utf8Encode (firstLine entry)) c then
    (c, true)
  else
    (utf8Encode entry ++ c, false)

/-- Python whitespace as used by `str.strip()` and the regex class `\s`
(restricted to its ASCII members, the only ones the tool meets). -/
def isPySpace (c : Char) : Bool :=
  c == ' ' || c == '\t' || c == '\n' || c == '\r' || c == '\x0b' || c == '\x0c'

/-- `str.strip()`: drop leading and trailing whitespace. -/
def trimChars (l : List Char) : List Char :=
  ((l.dropWhile isPySpace).reverse.dropWhile isPySpace).reverse

/-- ASCII lowercasing of a line, modelling the regex flag `(?i)`. -/
def lowerChars (l : List Char) : List Char :=
  l.map Char.toLower

/-- The cross-reference keywords of the source regex
`fix(es|ed)|close(s|d)|resolve(s|d)|address(es|ed)|part of`,
expanded and lowercased. -/
def refKeywords : List (List Char) :=
  [['f', 'i', 'x', 'e', 's'], ['f', 'i', 'x', 'e', 'd'],
   ['c', 'l', 'o', 's', 'e', 's'], ['c', 'l', 'o', 's', 'e', 'd'],
   ['r', 'e', 's', 'o', 'l', 'v', 'e', 's'],
   ['r', 'e', 's', 'o', 'l', 'v', 'e', 'd'],
   ['a', 'd', 'd', 'r', 'e', 's', 's', 'e', 's'],
   ['a', 'd', 'd', 'r', 'e', 's', 's', 'e', 'd'],
   ['p', 'a', 'r', 't', ' ', 'o', 'f']]

/-- After a keyword, the regex requires `\s*#\d+` up to the end of the
line. -/
def matchRefTail (l : List Char) : Bool :=
  match l.dropWhile isPySpace with
  | '#' :: ds => !ds.isEmpty && ds.all Char.isDigit
  | _ => false

/-- Drop a cross-reference keyword (matched case-insensitively) from
the front of `l`; `none` when no keyword is a prefix.  At most one
keyword can be a prefix at any position, as no keyword is a prefix of
another (`refKeywords_no_mutual_prefix`). -/
def dropKeyword (l : List Char) : Option (List Char) :=
  (refKeywords.find? (fun k => k.isPrefixOf (lowerChars l))).map
    (fun k => l.drop k.length)

/-- A line matched *within itself* by the first regex alternative
`^\s*(keyword)\s*#\d+$` (keyword case-insensitive): optional leading
whitespace, a keyword, then `\s*#\d+` up to the end of the line. -/
def isRefLine (line : List Char) : Bool :=
  match dropKeyword (line.dropWhile isPySpace) with
  | some rest => matchRefTail rest
  | none => false

/-- A line that strips to a bare cross-reference keyword (whitespace,
a keyword, then only whitespace).  On such a line the second `\s*` of
the source pattern continues across the newline into later lines. -/
def isBareKeywordLine (line : List Char) : Bool :=
  match dropKeyword (line.dropWhile isPySpace) with
  | some rest => rest.all isPySpace
  | none => false

/-- A line that is exactly `#` followed by one or more digits. -/
def isHashNum (l : List Char) : Bool :=
  match l with
  | '#' :: ds => !ds.isEmpty && ds.all Char.isDigit
  | _ => false

/-- The lowercased literal `Co-authored-by` of the second regex
alternative. -/
def coAuthoredMarker : List Char :=
  ['c', 'o', '-', 'a', 'u', 't', 'h', 'o', 'r', 'e', 'd', '-', 'b', 'y']

/-- A line matched by the second regex alternative
`^Co-authored-by.*$` (case-insensitively, anchored at line start). -/
def isCoAuthoredLine (line : List Char) : Bool :=
  coAuthoredMarker.isPrefixOf (lowerChars line)

/-- A line erased in place by the substitution (both alternatives of
the pattern, applied within one line).  This is the line-by-line
reading the spec describes; the faithful scan below additionally
removes references that span lines. -/
def isNoiseLine (line : List Char) : Bool :=
  isRefLine line || isCoAuthoredLine line

/-- The `#\d+$` portion of the first alternative: a hash, the maximal
run of digits (at least one), then end of text or a newline (which is
not consumed and is returned in the remainder). -/
def matchHashTail (s : List Char) : Option (List Char) :=
  match s with
  | '#' :: s4 =>
    let ds := s4.takeWhile Char.isDigit
    if ds.isEmpty then none
    else
      match s4.drop ds.length with
      | [] => some []
      | '\n' :: r => some ('\n' :: r)
      | _ => none
  | _ => none

/-- One attempt of the first alternative `\s*(keyword)\s*#\d+$` of the
source regex, at a position where `^` holds; returns the remainder of
the text after the match.  The pattern is deterministic here: both
`\s*` are forced to their maximal runs (a keyword starts with a letter
and `#` is not whitespace), and `\d+` is forced to its maximal run
followed by `$` (end of text or a newline, which is not consumed).
`\s` includes the newline, so a match may span several lines. -/
def matchRef1 (s : List Char) : Option (List Char) :=
  match dropKeyword (s.dropWhile isPySpace) with
  | none => none
  | some s2 => matchHashTail (s2.dropWhile isPySpace)

/-- One attempt of the second alternative `Co-authored-by.*$` at a
position where `^` holds; `.` does not match the newline, so the match
stops at the end of the line, leaving the newline in the remainder. -/
def matchCoAuth (s : List Char) : Option (List Char) :=
  if coAuthoredMarker.isPrefixOf (lowerChars s) then
    some ((s.drop coAuthoredMarker.length).dropWhile (fun c => c != '\n'))
  else none

/-- One attempt of the whole pattern (the alternatives in order). -/
def matchNoise (s : List Char) : Option (List Char) :=
  match matchRef1 s with
  | some r => some r
  | none => matchCoAuth s

/-- `re.sub(regex, '', commit.msg)` (source line 191): both
alternatives are anchored at `^`, so a match can only start at the
beginning of the string or right after a newline; everywhere else the
character is copied.  `fuel` bounds the number of steps; every step
consumes at least one character (`matchNoise_shrink`), so the initial
length suffices (`subNoiseAux_fuel`). -/
def subNoiseAux : Nat → Bool → List Char → List Char
  | _, _, [] => []
  | 0, _, s => s
  | fuel + 1, atLineStart, c :: rest =>
    if atLineStart then
      match matchNoise (c :: rest) with
      | some r => subNoiseAux fuel false r
      | none => c :: subNoiseAux fuel (c == '\n') rest
    else
      c :: subNoiseAux fuel (c == '\n') rest

/-- The scan with just enough fuel. -/
def subNoiseRun (atLineStart : Bool) (s : List Char) : List Char :=
  subNoiseAux s.length atLineStart s

/-- The full substitution, starting at a line start. -/
def subNoise (msg : List Char) : List Char :=
  subNoiseRun true msg

/-- Strip every line and drop the ones that become empty (source
lines 192-193). -/
def stripLines (L : List (List Char)) : List (List Char) :=
  (L.map trimChars).filter (fun l => !l.isEmpty)

/-- The list `commit_msg` of `build_message` (source lines 191-193):
the substitution applied to the whole message, then split on newlines,
each line stripped, empties dropped. -/
def survivingLines (msg : List Char) : List (List Char) :=
  stripLines (splitOnChar '\n' (subNoise msg))

/-- What one more pass of the substitution does to the description
lines of a rendered fragment: a line matching the pattern within
itself is dropped, and a line that is a bare keyword followed by a
`#digits` line is dropped together with that line (the `\s*` of the
pattern spans their newline). -/
def renormDescs : List (List Char) → List (List Char)
  | [] => []
  | d :: rest =>
    if isRefLine d then renormDescs rest
    else if isBareKeywordLine d then
      match rest with
      | [] => [d]
      | d2 :: rest2 =>
        if isHashNum d2 then renormDescs rest2
        else d :: renormDescs (d2 :: rest2)
    else d :: renormDescs rest

/-- The title/description split of `build_message`:
`(commit_msg[0], commit_msg[1:])`.  `none` models the `IndexError`
raised by `commit_msg[0]` on an empty list. -/
def normalize_split (msg : List Char) :
    Option (List Char × List (List Char)) :=
  match survivingLines msg with
  | [] => none
  | t :: ds => some (t, ds)

/-- Python `'\n'.join(...)`. -/
def joinLines : List (List Char) → List Char
  | [] => []
  | [l] => l
  | l :: r :: rest => l ++ '\n' :: joinLines (r :: rest)

/-- Rendering of `build_message` (source lines 196-200): the title with
a `"+ "` marker, each description line indented by two spaces, joined
with newlines. -/
def render_fragment (t : List Char) (ds : List (List Char)) : List Char :=
  joinLines (('+' :: ' ' :: t) :: ds.map (fun d => ' ' :: ' ' :: d))

/-- `build_message` (source lines 185-200). -/
def build_message (msg : List Char) : Option (List Char) :=
  match normalize_split msg with
  | none => none
  | some (t, ds) => some (render_fragment t ds)

/-- The normalization described by the spec's words (C4): noise lines
are removed, the *remaining* lines are trimmed, empty lines dropped,
and the result rendered as in `render_fragment`.  To be compared with
`build_message`, which is translated from the source. -/
def normalize_spec (msg : List Char) : Option (List Char) :=
  match (((splitOnChar '\n' msg).filter (fun l => !isNoiseLine l)).map
      trimChars).filter (fun l => !l.isEmpty) with
  | [] => none
  | t :: ds => some (render_fragment t ds)

/-- A pydriller commit as far as farmit reads it: its raw message and
(unused by the tool) its author timestamp. -/
structure Commit where
  msg : List Char
  author_date : Int
deriving DecidableEq

/-- The body accumulation of `build_changelog_entries` (source lines
177-181): `body += f"{build_message(commit)}\n"` for each commit in
order; a `build_message` failure propagates. -/
def build_body : List Commit → Option (List Char)
  | [] => some []
  | c :: rest => do
      let m ← build_message c.msg
      let r ← build_body rest
      pure (m ++ '\n' :: r)

/-- `build_changelog_entries` (source lines 173-182): returns the
header `"## {version}\n"` and the body. -/
def build_changelog_entries (version : List Char) (commits : List Commit) :
    Option (List Char × List Char) :=
  (build_body commits).map
    (fun body => (('#' :: '#' :: ' ' :: version) ++ ['\n'], body))

/-- The entry assembled in `main` (source line 281):
`entry = f"{title}\n{body}\n"`. -/
def render_entry (title body : List Char) : List Char :=
  title ++ '\n' :: (body ++ ['\n'])

/-- The unreleased-commit selection of `main` (source lines 272-277):
the reverse-ordered traversal from the last release tag, with
`del unreleased_commits[-1]` dropping the boundary commit from the
tail.  `none` models the `IndexError` of `del` on an empty list. -/
def unreleased_commits (traversal : List Commit) : Option (List Commit) :=
  match traversal with
  | [] => none
  | _ :: _ => some traversal.dropLast

/-- The three `FarmError` subclasses (source lines 142-157). -/
inductive FarmErrKind where
  | notGitRepo
  | dirtyRepo
  | untracked
deriving DecidableEq

/-- The message each `FarmError` subclass carries. -/
def FarmErrKind.message : FarmErrKind → String
  | .notGitRepo =>
      "fatal: not a git repository (or any of the parent directories): .git"
  | .dirtyRepo => "fatal: uncommitted changes"
  | .untracked => "fatal: untracked files"

/-- The repository facts `_main` reads.  `isRepo` records whether the
working directory is inside a git repository at all: when it is not,
the `Repo(os.getcwd(), search_parent_directories=True)` call on source
line 374 raises `InvalidGitRepositoryError` — which is *not* a
`FarmError` — before any precondition check runs. -/
structure RepoState where
  isRepo : Bool
  bare : Bool
  isDirty : Bool
  untrackedFiles : List String
deriving DecidableEq

/-- The precondition checks of `_main` (source lines 376-381), in
source order; `some k` models raising the corresponding `FarmError`. -/
def precheck (repo : RepoState) (allowUncommitted : Bool) :
    Option FarmErrKind :=
  if repo.bare then some .notGitRepo
  else if !allowUncommitted && repo.isDirty then some .dirtyRepo
  else if !repo.untrackedFiles.isEmpty then some .untracked
  else none

/-- The exceptions `_main` can see from `main`: a `FarmError`, the
`InvalidVersion` of a malformed version string, a git command failure,
or anything else. -/
inductive Exc where
  | farm (k : FarmErrKind)
  | invalidVersion
  | gitCommand
  | other
deriving DecidableEq

/-- Membership in the `except FarmError` clause (source line 384). -/
def is_farm_error : Exc → Bool
  | .farm _ => true
  | _ => false

/-- The exception dispatch of `_main` (source lines 368-401), projected
to the exit code.  When the directory is not a repository, `Repo()`
itself raises (`InvalidGitRepositoryError`), which falls to the
`except Exception` clause: exit code 2.  Otherwise the `FarmError`
precondition checks run; then `mainOutcome` is `none` when `main`
returns normally, `some e` when it raises `e`.  The second component
records whether `main` ran at all (no mutation happens before it). -/
def _main_exit (repo : RepoState) (allowUncommitted : Bool)
    (mainOutcome : Option Exc) : Nat × Bool :=
  if !repo.isRepo then (2, false)
  else
    match precheck repo allowUncommitted with
    | some _ => (1, false)
    | none =>
      match mainOutcome with
      | none => (0, true)
      | some e => (if is_farm_error e then 1 else 2, true)

/-- The character alphabet of PEP 440 version strings (after the
surrounding whitespace that `packaging` itself strips): every string
`packaging.version.Version` accepts consists, once stripped, of
alphanumerics, dots, underscores, hyphens, pluses and the epoch `!`.
A stripped tag containing any other character is therefore certainly
`InvalidVersion`. -/
def pep440Char (c : Char) : Bool :=
  c.isAlphanum || c == '.' || c == '_' || c == '-' || c == '+' || c == '!'

/-- A version string that `packaging` certainly rejects: after
stripping it still contains a character outside the PEP 440 alphabet
(an embedded space, a slash, a colon, ...). -/
def hasNonPep440Char (s : String) : Bool :=
  (trimChars s.data).any (fun c => !pep440Char c)

/-- Externally observable operations of a run, for the frame claims. -/
inductive Effect where
  | fetch
  | createBranch (name : String)
  | reuseBranch (name : String)
  | checkoutBranch (name : String)
  | deleteBranch (name : String)
  | writeChangelog
  | commitChangelog
  | pushBranch
  | printPreview
  | printPrUrl
  | checkoutPrevious
deriving DecidableEq

/-- `create_release_branch` (source lines 341-365) as an effect trace:
fetch, create (or, when it already exists, reuse) `release/{version}`,
and check it out.  Also returns the branch name. -/
def create_release_branch (version : String) (branchExists : Bool) :
    List Effect × String :=
  let name := "release/" ++ version
  ((Effect.fetch ::
      (if branchExists then [Effect.reuseBranch name]
       else [Effect.createBranch name])) ++ [Effect.checkoutBranch name],
   name)

/-- `main` (source lines 262-292) as an effect trace: the release
branch is created and checked out first; only then is `--dry-run`
consulted, printing a preview instead of updating, committing and
pushing the changelog.  `upToDate` tells whether `update_changelog`
found the header already present (in which case it does not write). -/
def main_effects (dryRun : Bool) (version : String)
    (branchExists upToDate : Bool) : List Effect :=
  (create_release_branch version branchExists).1 ++
    (if dryRun then [Effect.printPreview]
     else ((if upToDate then [] else [Effect.writeChangelog]) ++
       [Effect.commitChangelog, Effect.pushBranch, Effect.printPrUrl]))

/-- A successful `_main` run (source lines 368-401) as an effect trace:
after `main`, the `finally` block checks out the previously active
branch (`BRANCH_CHANGED` is set by `create_release_branch`); the
release branch itself is never deleted. -/
def _main_effects (dryRun : Bool) (version : String)
    (branchExists upToDate : Bool) : List Effect :=
  main_effects dryRun version branchExists upToDate ++
    [Effect.checkoutPrevious]

/- ------------------------------------------------------------------ -/
/- Helper lemmas                                                      -/
/- ------------------------------------------------------------------ -/

theorem utf8Encode_append (a b : List Char) :
    utf8Encode (a ++ b) = utf8Encode a ++ utf8Encode b :=
  List.flatMap_append a b _

theorem utf8EncodeChar_ne_nil (c : Char) : String.utf8EncodeChar c ≠ [] := by
  unfold String.utf8EncodeChar
  dsimp only
  split_ifs <;> simp

theorem isPrefixOf_append_self (l r : List UInt8) :
    l.isPrefixOf (l ++ r) = true := by
  induction l with
  | nil => cases r <;> rfl
  | cons a t ih => simp [List.isPrefixOf, ih]

theorem hasInfixBytes_left (p r : List UInt8) :
    hasInfixBytes p (p ++ r) = true := by
  cases p with
  | nil =>
    cases r with
    | nil => rfl
    | cons c cs => simp [hasInfixBytes, List.isPrefixOf]
  | cons x xs =>
    simp [hasInfixBytes, isPrefixOf_append_self]

theorem trimChars_nil : trimChars [] = [] := rfl

theorem survivors_eq_spec (lines : List (List Char)) :
    ((lines.map (fun l => if isNoiseLine l then [] else l)).map
        trimChars).filter (fun l => !l.isEmpty)
      = ((lines.filter (fun l => !isNoiseLine l)).map trimChars).filter
          (fun l => !l.isEmpty) := by
  induction lines with
  | nil => rfl
  | cons l rest ih =>
    by_cases h : isNoiseLine l
    · simp [h, ih, trimChars_nil, -List.map_map]
    · simp [h, ih, -List.map_map, List.filter_cons]

theorem build_body_eq (commits : List Commit) (frags : List (List Char))
    (h : commits.mapM (fun c => build_message c.msg) = some frags) :
    build_body commits
      = some ((frags.map (fun fr => fr ++ ['\n'])).flatten) := by
  induction commits generalizing frags with
  | nil =>
    simp only [List.mapM_nil, pure, Option.some.injEq] at h
    subst h
    rfl
  | cons c cs ih =>
    rw [List.mapM_cons] at h
    cases hbm : build_message c.msg with
    | none => rw [hbm] at h; simp at h
    | some m =>
      rw [hbm] at h
      cases hms : cs.mapM (fun c => build_message c.msg) with
      | none => rw [hms] at h; simp at h
      | some ms =>
        rw [hms] at h
        simp only [Option.bind_eq_bind, Option.some_bind, pure,
          Option.some.injEq] at h
        subst h
        simp [build_body, hbm, ih ms hms]

theorem build_body_timestamps (commits : List Commit) (f : Commit → Int) :
    build_body (commits.map (fun c => ⟨c.msg, f c⟩))
      = build_body commits := by
  induction commits with
  | nil => rfl
  | cons c cs ih => simp [build_body, ih]

theorem splitOnChar_ne_nil (sep : Char) (l : List Char) :
    splitOnChar sep l ≠ [] := by
  cases l with
  | nil => simp [splitOnChar]
  | cons c rest =>
    unfold splitOnChar
    cases splitOnChar sep rest with
    | nil => simp
    | cons h t =>
      dsimp only
      split <;> simp

theorem not_mem_splitOnChar (sep : Char) (l : List Char) :
    ∀ piece ∈ splitOnChar sep l, sep ∉ piece := by
  induction l with
  | nil =>
    intro piece hp
    simp [splitOnChar] at hp
    subst hp
    simp
  | cons c rest ih =>
    intro piece hp
    cases hsp : splitOnChar sep rest with
    | nil => exact absurd hsp (splitOnChar_ne_nil sep rest)
    | cons h t =>
      by_cases hc : (c == sep) = true
      · have heq : splitOnChar sep (c :: rest) = [] :: h :: t := by
          simp [splitOnChar, hsp, hc]
        rw [heq] at hp
        rcases List.mem_cons.mp hp with h1 | h2
        · subst h1; simp
        · exact ih piece (hsp ▸ h2)
      · have heq : splitOnChar sep (c :: rest) = (c :: h) :: t := by
          simp [splitOnChar, hsp, hc]
        rw [heq] at hp
        rcases List.mem_cons.mp hp with h1 | h2
        · subst h1
          intro hmem
          rcases List.mem_cons.mp hmem with h3 | h4
          · exact hc (beq_iff_eq.mpr h3.symm)
          · exact ih h (hsp ▸ List.mem_cons_self h t) h4
        · exact ih piece (hsp ▸ List.mem_cons_of_mem h h2)

theorem splitOnChar_of_not_mem (sep : Char) (l : List Char)
    (h : sep ∉ l) : splitOnChar sep l = [l] := by
  induction l with
  | nil => rfl
  | cons c rest ih =>
    have hc : ¬(c == sep) = true := by
      intro hb
      exact h (List.mem_cons.mpr (Or.inl (beq_iff_eq.mp hb).symm))
    have hrest : sep ∉ rest := fun hm => h (List.mem_cons_of_mem c hm)
    unfold splitOnChar
    rw [ih hrest]
    simp [hc]

theorem splitOnChar_append (sep : Char) (a b : List Char) (ha : sep ∉ a) :
    splitOnChar sep (a ++ sep :: b) = a :: splitOnChar sep b := by
  induction a with
  | nil =>
    show splitOnChar sep (sep :: b) = [] :: splitOnChar sep b
    cases hsb : splitOnChar sep b with
    | nil => exact absurd hsb (splitOnChar_ne_nil sep b)
    | cons h t => simp [splitOnChar, hsb]
  | cons c a ih =>
    have hc : ¬(c == sep) = true := by
      intro hb
      exact ha (List.mem_cons.mpr (Or.inl (beq_iff_eq.mp hb).symm))
    have ha2 : sep ∉ a := fun hm => ha (List.mem_cons_of_mem c hm)
    show splitOnChar sep (c :: (a ++ sep :: b))
        = (c :: a) :: splitOnChar sep b
    simp [splitOnChar, ih ha2, hc]

theorem splitOnChar_joinLines (L : List (List Char)) (hne : L ≠ [])
    (h : ∀ l ∈ L, '\n' ∉ l) :
    splitOnChar '\n' (joinLines L) = L := by
  induction L with
  | nil => exact absurd rfl hne
  | cons l rest ih =>
    cases rest with
    | nil =>
      show splitOnChar '\n' l = [l]
      exact splitOnChar_of_not_mem '\n' l (h l (List.mem_cons_self l []))
    | cons r rs =>
      show splitOnChar '\n' (l ++ '\n' :: joinLines (r :: rs))
          = l :: (r :: rs)
      rw [splitOnChar_append '\n' l _ (h l (List.mem_cons_self l _))]
      rw [ih (List.cons_ne_nil r rs)
        (fun x hx => h x (List.mem_cons_of_mem l hx))]

theorem dropWhile_head_false (p : Char → Bool) (l : List Char) :
    ∀ a r, l.dropWhile p = a :: r → p a = false := by
  induction l with
  | nil => intro a r h; simp at h
  | cons c t ih =>
    intro a r h
    rw [List.dropWhile_cons] at h
    cases hpc : p c
    · simp [hpc] at h
      rw [← h.1]
      exact hpc
    · simp [hpc] at h
      exact ih a r h

theorem dropWhile_cons_false (p : Char → Bool) (a : Char) (l : List Char)
    (h : p a = false) : List.dropWhile p (a :: l) = a :: l := by
  rw [List.dropWhile_cons, h]
  simp

theorem dropWhile_append_last (p : Char → Bool) (x : List Char) (a : Char)
    (h : p a = false) :
    List.dropWhile p (x ++ [a]) = List.dropWhile p x ++ [a] := by
  induction x with
  | nil => simp [dropWhile_cons_false p a [] h]
  | cons c t ih =>
    rw [List.cons_append, List.dropWhile_cons, List.dropWhile_cons]
    cases hpc : p c <;> simp [hpc, ih]

theorem mem_dropWhile (p : Char → Bool) (l : List Char) (c : Char)
    (h : c ∈ List.dropWhile p l) : c ∈ l := by
  induction l with
  | nil => simp at h
  | cons a t ih =>
    rw [List.dropWhile_cons] at h
    cases hpa : p a
    · simp [hpa] at h
      exact List.mem_cons.mpr h
    · simp [hpa] at h
      exact List.mem_cons_of_mem a (ih h)

theorem mem_trimChars (x : List Char) (c : Char) (h : c ∈ trimChars x) :
    c ∈ x := by
  unfold trimChars at h
  rw [List.mem_reverse] at h
  have h1 := mem_dropWhile _ _ _ h
  rw [List.mem_reverse] at h1
  exact mem_dropWhile _ _ _ h1

theorem trimChars_head (x : List Char) :
    ∀ a r, trimChars x = a :: r → isPySpace a = false := by
  intro a r h
  cases hA : List.dropWhile isPySpace x with
  | nil =>
    unfold trimChars at h
    rw [hA] at h
    simp at h
  | cons c A =>
    have hc : isPySpace c = false := dropWhile_head_false _ _ c A hA
    have hx : trimChars x
        = c :: (List.dropWhile isPySpace A.reverse).reverse := by
      unfold trimChars
      rw [hA, List.reverse_cons, dropWhile_append_last _ _ _ hc,
        List.reverse_append]
      rfl
    rw [hx] at h
    injection h with h1 _
    rw [← h1]
    exact hc

theorem trimChars_last (x : List Char) :
    ∀ a r, (trimChars x).reverse = a :: r → isPySpace a = false := by
  intro a r h
  have hx : (trimChars x).reverse
      = List.dropWhile isPySpace (List.dropWhile isPySpace x).reverse := by
    unfold trimChars
    rw [List.reverse_reverse]
  rw [hx] at h
  exact dropWhile_head_false _ _ a r h

theorem trim_of_ends (l : List Char)
    (h1 : ∀ a r, l = a :: r → isPySpace a = false)
    (h2 : ∀ a r, l.reverse = a :: r → isPySpace a = false) :
    trimChars l = l := by
  unfold trimChars
  have hd : List.dropWhile isPySpace l = l := by
    cases hl : l with
    | nil => rfl
    | cons a r => exact dropWhile_cons_false _ a r (h1 a r hl)
  rw [hd]
  have hr : List.dropWhile isPySpace l.reverse = l.reverse := by
    cases hl : l.reverse with
    | nil => rfl
    | cons a r => exact dropWhile_cons_false _ a r (h2 a r hl)
  rw [hr, List.reverse_reverse]

theorem isPrefixOf_cons_cons (a b : Char) (as bs : List Char) :
    (a :: as).isPrefixOf (b :: bs) = ((a == b) && as.isPrefixOf bs) := rfl

theorem lowerChars_cons (c : Char) (l : List Char) :
    lowerChars (c :: l) = c.toLower :: lowerChars l := rfl

theorem trim_title_line (t : List Char) (hne : t ≠ [])
    (hlast : ∀ a r, t.reverse = a :: r → isPySpace a = false) :
    trimChars ('+' :: ' ' :: t) = '+' :: ' ' :: t := by
  apply trim_of_ends
  · intro a r h
    injection h with h1 _
    rw [← h1]
    rfl
  · intro a r h
    cases ht : t.reverse with
    | nil => exact absurd (List.reverse_eq_nil_iff.mp ht) hne
    | cons b w =>
      have hrev : ('+' :: ' ' :: t).reverse
          = b :: (w ++ [' '] ++ ['+']) := by
        rw [List.reverse_cons, List.reverse_cons, ht]
        rfl
      rw [hrev] at h
      injection h with h1 _
      rw [← h1]
      exact hlast b w ht

theorem trim_desc_line (d : List Char) (_hne : d ≠ [])
    (hhead : ∀ a r, d = a :: r → isPySpace a = false)
    (hlast : ∀ a r, d.reverse = a :: r → isPySpace a = false) :
    trimChars (' ' :: ' ' :: d) = d := by
  unfold trimChars
  have h1 : List.dropWhile isPySpace (' ' :: ' ' :: d) = d := by
    have hdd : List.dropWhile isPySpace d = d := by
      cases hl : d with
      | nil => rfl
      | cons a r => exact dropWhile_cons_false _ a r (hhead a r hl)
    simp [List.dropWhile_cons, show isPySpace ' ' = true from rfl, hdd]
  rw [h1]
  have h2 : List.dropWhile isPySpace d.reverse = d.reverse := by
    cases hl : d.reverse with
    | nil => rfl
    | cons a r => exact dropWhile_cons_false _ a r (hlast a r hl)
  rw [h2, List.reverse_reverse]

theorem mem_splitOnChar_of_mem (sep : Char) (l : List Char) (c : Char)
    (hc : c ∈ l) (hne : c ≠ sep) :
    ∃ piece ∈ splitOnChar sep l, c ∈ piece := by
  induction l with
  | nil => simp at hc
  | cons a rest ih =>
    cases hsp : splitOnChar sep rest with
    | nil => exact absurd hsp (splitOnChar_ne_nil sep rest)
    | cons h t =>
      by_cases ha : (a == sep) = true
      · have heq : splitOnChar sep (a :: rest) = [] :: h :: t := by
          simp [splitOnChar, hsp, ha]
        rcases List.mem_cons.mp hc with h1 | h2
        · exact absurd (h1.trans (beq_iff_eq.mp ha)) hne
        · obtain ⟨p, hp1, hp2⟩ := ih h2
          rw [hsp] at hp1
          exact ⟨p, by rw [heq]; exact List.mem_cons_of_mem _ hp1, hp2⟩
      · have heq : splitOnChar sep (a :: rest) = (a :: h) :: t := by
          simp [splitOnChar, hsp, ha]
        rcases List.mem_cons.mp hc with h1 | h2
        · subst h1
          exact ⟨c :: h, by rw [heq]; exact List.mem_cons_self _ _,
            List.mem_cons_self _ _⟩
        · obtain ⟨p, hp1, hp2⟩ := ih h2
          rw [hsp] at hp1
          rcases List.mem_cons.mp hp1 with hp3 | hp4
          · subst hp3
            exact ⟨a :: p, by rw [heq]; exact List.mem_cons_self _ _,
              List.mem_cons_of_mem _ hp2⟩
          · exact ⟨p, by rw [heq]; exact List.mem_cons_of_mem _ hp4, hp2⟩

theorem charsToNat?_eq_none (piece : List Char) (c : Char) (hc : c ∈ piece)
    (hd : c.isDigit = false) : charsToNat? piece = none := by
  have hall : piece.all Char.isDigit = false := by
    cases hb : piece.all Char.isDigit
    · rfl
    · rw [List.all_eq_true] at hb
      rw [hb c hc] at hd
      exact Bool.noConfusion hd
  simp [charsToNat?, hall]

theorem mapM_charsToNat?_none (l : List (List Char)) (x : List Char)
    (hx : x ∈ l) (hfx : charsToNat? x = none) :
    l.mapM charsToNat? = none := by
  induction l with
  | nil => simp at hx
  | cons a rest ih =>
    rcases List.mem_cons.mp hx with h1 | h2
    · subst h1
      rw [List.mapM_cons, hfx]
      rfl
    · cases ha : charsToNat? a
      · rw [List.mapM_cons, ha]
        rfl
      · rw [List.mapM_cons, ih h2, ha]
        rfl

theorem hasNonPep440Char_parseVersion (s : String)
    (h : hasNonPep440Char s = true) : parseVersion s = none := by
  unfold hasNonPep440Char at h
  rw [List.any_eq_true] at h
  obtain ⟨c, hc1, hc2⟩ := h
  have hcd : c ∈ s.data := mem_trimChars _ _ hc1
  have hc3 : pep440Char c = false := by
    cases hb : pep440Char c
    · rfl
    · rw [hb] at hc2
      simp at hc2
  have hcnotdot : c ≠ '.' := by
    intro he
    subst he
    simp [pep440Char] at hc3
  have hcnotdigit : c.isDigit = false := by
    cases hdig : c.isDigit
    · rfl
    · exfalso
      have hpc : pep440Char c = true := by
        simp [pep440Char, Char.isAlphanum, hdig]
      rw [hpc] at hc3
      exact Bool.noConfusion hc3
  obtain ⟨piece, hp1, hp2⟩ := mem_splitOnChar_of_mem '.' s.data c hcd hcnotdot
  unfold parseVersion
  rw [mapM_charsToNat?_none _ piece hp1
    (charsToNat?_eq_none piece c hp2 hcnotdigit)]

theorem isPrefixOf_length_le (k l : List Char)
    (h : k.isPrefixOf l = true) : k.length ≤ l.length := by
  induction k generalizing l with
  | nil => simp
  | cons a as ih =>
    cases l with
    | nil => exact absurd h (by simp [List.isPrefixOf])
    | cons b bs =>
      rw [isPrefixOf_cons_cons] at h
      simp only [Bool.and_eq_true] at h
      exact Nat.succ_le_succ (ih bs h.2)

theorem isPrefixOf_append_left (k a b : List Char)
    (h : k.isPrefixOf a = true) : k.isPrefixOf (a ++ b) = true := by
  induction k generalizing a with
  | nil => cases a ++ b <;> rfl
  | cons x xs ih =>
    cases a with
    | nil => exact absurd h (by simp [List.isPrefixOf])
    | cons y ys =>
      rw [isPrefixOf_cons_cons] at h
      simp only [Bool.and_eq_true] at h
      rw [List.cons_append, isPrefixOf_cons_cons, h.1, ih ys h.2]
      rfl

theorem isPrefixOf_append_split (k x : List Char) (c : Char)
    (y : List Char) (h : k.isPrefixOf (x ++ c :: y) = true)
    (hc : c ∉ k) : k.isPrefixOf x = true := by
  induction k generalizing x with
  | nil => cases x <;> rfl
  | cons a as ih =>
    cases x with
    | nil =>
      rw [List.nil_append, isPrefixOf_cons_cons] at h
      simp only [Bool.and_eq_true] at h
      exact absurd (beq_iff_eq.mp h.1).symm
        (fun he => hc (he ▸ List.mem_cons_self a as))
    | cons b bs =>
      rw [List.cons_append, isPrefixOf_cons_cons] at h
      simp only [Bool.and_eq_true] at h
      rw [isPrefixOf_cons_cons, h.1,
        ih bs h.2 (fun hm => hc (List.mem_cons_of_mem a hm))]
      rfl

theorem isPrefixOf_comparable (z k1 k2 : List Char)
    (h1 : k1.isPrefixOf z = true) (h2 : k2.isPrefixOf z = true) :
    k1.isPrefixOf k2 = true ∨ k2.isPrefixOf k1 = true := by
  induction z generalizing k1 k2 with
  | nil =>
    cases k1 with
    | nil => left; cases k2 <;> rfl
    | cons a as => exact absurd h1 (by simp [List.isPrefixOf])
  | cons c z ih =>
    cases k1 with
    | nil => left; cases k2 <;> rfl
    | cons a as =>
      cases k2 with
      | nil => right; rfl
      | cons b bs =>
        rw [isPrefixOf_cons_cons] at h1 h2
        simp only [Bool.and_eq_true] at h1 h2
        have hab : (a == b) = true := by
          rw [beq_iff_eq.mp h1.1, beq_iff_eq.mp h2.1]
          exact beq_self_eq_true c
        have hba : (b == a) = true := by
          rw [beq_iff_eq.mp h1.1, beq_iff_eq.mp h2.1]
          exact beq_self_eq_true c
        rcases ih as bs h1.2 h2.2 with hcmp | hcmp
        · left; rw [isPrefixOf_cons_cons, hab, hcmp]; rfl
        · right; rw [isPrefixOf_cons_cons, hba, hcmp]; rfl

theorem refKeywords_pairwise : ∀ k1 ∈ refKeywords, ∀ k2 ∈ refKeywords,
    k1 = k2 ∨ (k1.isPrefixOf k2 = false ∧ k2.isPrefixOf k1 = false) := by
  decide

theorem refKeywords_ne_nil : ∀ k ∈ refKeywords, k ≠ [] := by decide

theorem refKeywords_no_newline : ∀ k ∈ refKeywords, '\n' ∉ k := by decide

theorem keyword_unique (z k1 k2 : List Char) (hk1 : k1 ∈ refKeywords)
    (hk2 : k2 ∈ refKeywords) (h1 : k1.isPrefixOf z = true)
    (h2 : k2.isPrefixOf z = true) : k1 = k2 := by
  rcases refKeywords_pairwise k1 hk1 k2 hk2 with he | ⟨hn1, hn2⟩
  · exact he
  · rcases isPrefixOf_comparable z k1 k2 h1 h2 with hc | hc
    · rw [hc] at hn1; exact Bool.noConfusion hn1
    · rw [hc] at hn2; exact Bool.noConfusion hn2

theorem find?_eq_some_of_unique (p : List Char → Bool)
    (l : List (List Char)) (k : List Char) (hk : k ∈ l)
    (hpk : p k = true) (huniq : ∀ x ∈ l, p x = true → x = k) :
    l.find? p = some k := by
  induction l with
  | nil => simp at hk
  | cons a rest ih =>
    by_cases hpa : p a = true
    · have hak : a = k := huniq a (List.mem_cons_self a rest) hpa
      subst hak
      exact List.find?_cons_of_pos rest hpa
    · rw [List.find?_cons_of_neg rest hpa]
      have hk2 : k ∈ rest := by
        rcases List.mem_cons.mp hk with h | h
        · exact absurd (h ▸ hpk) hpa
        · exact h
      exact ih hk2 (fun x hx => huniq x (List.mem_cons_of_mem a hx))

theorem lowerChars_append (a b : List Char) :
    lowerChars (a ++ b) = lowerChars a ++ lowerChars b :=
  List.map_append Char.toLower a b

theorem lowerChars_length (l : List Char) :
    (lowerChars l).length = l.length :=
  List.length_map l Char.toLower

theorem dropKeyword_eq_some (l : List Char) (k : List Char)
    (hk : k ∈ refKeywords) (hpre : k.isPrefixOf (lowerChars l) = true) :
    dropKeyword l = some (l.drop k.length) := by
  unfold dropKeyword
  rw [find?_eq_some_of_unique _ refKeywords k hk hpre
    (fun x hx hpx => keyword_unique (lowerChars l) x k hx hk hpx hpre)]
  rfl

theorem dropKeyword_some_elim (l : List Char) (r : List Char)
    (h : dropKeyword l = some r) :
    ∃ k ∈ refKeywords, k.isPrefixOf (lowerChars l) = true
      ∧ r = l.drop k.length ∧ k.length ≤ l.length := by
  unfold dropKeyword at h
  cases hf : refKeywords.find? (fun k => k.isPrefixOf (lowerChars l)) with
  | none => rw [hf] at h; exact Option.noConfusion h
  | some k =>
    rw [hf] at h
    simp only [Option.map, Option.some.injEq] at h
    have hmem : k ∈ refKeywords := List.mem_of_find?_eq_some hf
    have hpre : k.isPrefixOf (lowerChars l) = true :=
      @List.find?_some _ (fun x => x.isPrefixOf (lowerChars l)) k refKeywords hf
    have hle : k.length ≤ l.length := by
      have := isPrefixOf_length_le k (lowerChars l) hpre
      rwa [lowerChars_length] at this
    exact ⟨k, hmem, hpre, h.symm, hle⟩

theorem dropKeyword_append (l y r : List Char)
    (h : dropKeyword l = some r) :
    dropKeyword (l ++ y) = some (r ++ y) := by
  obtain ⟨k, hk, hpre, hr, hlen⟩ := dropKeyword_some_elim l r h
  have hpre2 : k.isPrefixOf (lowerChars (l ++ y)) = true := by
    rw [lowerChars_append]
    exact isPrefixOf_append_left _ _ _ hpre
  rw [dropKeyword_eq_some (l ++ y) k hk hpre2,
    List.drop_append_of_le_length hlen, hr]

theorem dropKeyword_append_confined (l y r : List Char)
    (hy : y = [] ∨ ∃ y2, y = '\n' :: y2)
    (h : dropKeyword (l ++ y) = some r) :
    ∃ w, dropKeyword l = some w ∧ r = w ++ y := by
  obtain ⟨k, hk, hpre, hr, _⟩ := dropKeyword_some_elim (l ++ y) r h
  have hprel : k.isPrefixOf (lowerChars l) = true := by
    rcases hy with hy | ⟨y2, hy⟩
    · subst hy; rwa [List.append_nil] at hpre
    · subst hy
      rw [lowerChars_append] at hpre
      have : lowerChars ('\n' :: y2) = '\n' :: lowerChars y2 := rfl
      rw [this] at hpre
      exact isPrefixOf_append_split k (lowerChars l) '\n' (lowerChars y2)
        hpre (refKeywords_no_newline k hk)
  have hlen : k.length ≤ l.length := by
    have := isPrefixOf_length_le k (lowerChars l) hprel
    rwa [lowerChars_length] at this
  exact ⟨l.drop k.length, dropKeyword_eq_some l k hk hprel,
    by rw [hr, List.drop_append_of_le_length hlen]⟩

theorem length_dropWhile_le (p : Char → Bool) (l : List Char) :
    (l.dropWhile p).length ≤ l.length := by
  induction l with
  | nil => simp
  | cons a t ih =>
    rw [List.dropWhile_cons]
    cases hpa : p a
    · simp
    · simp only [if_pos rfl]
      exact Nat.le_succ_of_le ih

theorem matchHashTail_shrink (s r : List Char)
    (h : matchHashTail s = some r) : r.length < s.length := by
  unfold matchHashTail at h
  split at h
  next s4 =>
    dsimp only at h
    by_cases he : (s4.takeWhile Char.isDigit).isEmpty = true
    · rw [if_pos he] at h
      exact Option.noConfusion h
    · rw [if_neg he] at h
      have h1 : 1 ≤ (s4.takeWhile Char.isDigit).length := by
        cases hts : s4.takeWhile Char.isDigit with
        | nil => rw [hts] at he; exact absurd rfl he
        | cons a b => simp
      have hmain : ∀ r2 : List Char,
          r2 = s4.drop (s4.takeWhile Char.isDigit).length →
          r2.length < ('#' :: s4).length := by
        intro r2 hr2
        have h2 : r2.length
            = s4.length - (s4.takeWhile Char.isDigit).length := by
          rw [hr2, List.length_drop]
        simp only [List.length_cons]
        omega
      split at h
      next heq =>
        cases h
        exact hmain [] heq.symm
      next r2 heq =>
        cases h
        exact hmain _ heq.symm
      next => exact Option.noConfusion h
  next => exact Option.noConfusion h

theorem matchCoAuth_shrink (s r : List Char)
    (h : matchCoAuth s = some r) : r.length < s.length := by
  unfold matchCoAuth at h
  by_cases hp : coAuthoredMarker.isPrefixOf (lowerChars s) = true
  · rw [if_pos hp] at h
    cases h
    have h14 : coAuthoredMarker.length ≤ s.length := by
      have := isPrefixOf_length_le _ _ hp
      rwa [lowerChars_length] at this
    have h1 : ((s.drop coAuthoredMarker.length).dropWhile
        (fun c => c != '\n')).length ≤ s.length - coAuthoredMarker.length := by
      have := length_dropWhile_le (fun c => c != '\n')
        (s.drop coAuthoredMarker.length)
      rwa [List.length_drop] at this
    have h2 : coAuthoredMarker.length = 14 := rfl
    omega
  · rw [if_neg hp] at h
    exact Option.noConfusion h

theorem matchRef1_shrink (s r : List Char)
    (h : matchRef1 s = some r) : r.length < s.length := by
  unfold matchRef1 at h
  cases hdk : dropKeyword (s.dropWhile isPySpace) with
  | none => rw [hdk] at h; exact Option.noConfusion h
  | some s2 =>
    rw [hdk] at h
    obtain ⟨k, hk, _, hs2, hkle⟩ := dropKeyword_some_elim _ _ hdk
    have hk1 : 1 ≤ k.length :=
      List.length_pos.mpr (refKeywords_ne_nil k hk)
    have h1 : r.length < (s2.dropWhile isPySpace).length :=
      matchHashTail_shrink _ _ h
    have h2 : (s2.dropWhile isPySpace).length ≤ s2.length :=
      length_dropWhile_le _ _
    have h3 : s2.length = (s.dropWhile isPySpace).length - k.length := by
      rw [hs2, List.length_drop]
    have h4 : (s.dropWhile isPySpace).length ≤ s.length :=
      length_dropWhile_le _ _
    omega

theorem matchNoise_shrink (s r : List Char)
    (h : matchNoise s = some r) : r.length < s.length := by
  unfold matchNoise at h
  cases hm : matchRef1 s with
  | some r2 =>
    rw [hm] at h
    cases h
    exact matchRef1_shrink s r hm
  | none =>
    rw [hm] at h
    exact matchCoAuth_shrink s r h

theorem matchNoise_nil : matchNoise [] = none := rfl

theorem subNoiseAux_nil (fuel : Nat) (b : Bool) :
    subNoiseAux fuel b [] = [] := by
  cases fuel <;> rfl

theorem subNoiseAux_cons_false (fuel : Nat) (c : Char) (rest : List Char) :
    subNoiseAux (fuel + 1) false (c :: rest)
      = c :: subNoiseAux fuel (c == '\n') rest := rfl

theorem subNoiseAux_cons_match (fuel : Nat) (c : Char) (rest r : List Char)
    (h : matchNoise (c :: rest) = some r) :
    subNoiseAux (fuel + 1) true (c :: rest) = subNoiseAux fuel false r := by
  have he : subNoiseAux (fuel + 1) true (c :: rest)
      = (match matchNoise (c :: rest) with
         | some r => subNoiseAux fuel false r
         | none => c :: subNoiseAux fuel (c == '\n') rest) := rfl
  rw [he, h]

theorem subNoiseAux_cons_nomatch (fuel : Nat) (c : Char) (rest : List Char)
    (h : matchNoise (c :: rest) = none) :
    subNoiseAux (fuel + 1) true (c :: rest)
      = c :: subNoiseAux fuel (c == '\n') rest := by
  have he : subNoiseAux (fuel + 1) true (c :: rest)
      = (match matchNoise (c :: rest) with
         | some r => subNoiseAux fuel false r
         | none => c :: subNoiseAux fuel (c == '\n') rest) := rfl
  rw [he, h]

theorem subNoiseAux_fuel (fuel : Nat) : ∀ (b : Bool) (s : List Char)
    (fuel2 : Nat), s.length ≤ fuel → s.length ≤ fuel2 →
    subNoiseAux fuel b s = subNoiseAux fuel2 b s := by
  induction fuel with
  | zero =>
    intro b s fuel2 h1 _
    have hs : s = [] := List.length_eq_zero.mp (Nat.le_zero.mp h1)
    subst hs
    rw [subNoiseAux_nil, subNoiseAux_nil]
  | succ f ih =>
    intro b s fuel2 h1 h2
    cases s with
    | nil => rw [subNoiseAux_nil, subNoiseAux_nil]
    | cons c rest =>
      cases fuel2 with
      | zero => simp at h2
      | succ f2 =>
        simp only [List.length_cons, Nat.succ_le_succ_iff] at h1 h2
        cases b with
        | false =>
          rw [subNoiseAux_cons_false, subNoiseAux_cons_false,
            ih _ rest f2 h1 h2]
        | true =>
          cases hm : matchNoise (c :: rest) with
          | some r =>
            rw [subNoiseAux_cons_match f c rest r hm,
              subNoiseAux_cons_match f2 c rest r hm]
            have hr := matchNoise_shrink _ _ hm
            simp only [List.length_cons] at hr
            exact ih false r f2 (by omega) (by omega)
          | none =>
            rw [subNoiseAux_cons_nomatch f c rest hm,
              subNoiseAux_cons_nomatch f2 c rest hm,
              ih _ rest f2 h1 h2]

theorem subNoiseRun_nil (b : Bool) : subNoiseRun b [] = [] := rfl

theorem subNoiseRun_cons_false (c : Char) (rest : List Char) :
    subNoiseRun false (c :: rest)
      = c :: subNoiseRun (c == '\n') rest := rfl

theorem subNoiseRun_match (s r : List Char) (hne : s ≠ [])
    (h : matchNoise s = some r) :
    subNoiseRun true s = subNoiseRun false r := by
  cases s with
  | nil => exact absurd rfl hne
  | cons c rest =>
    unfold subNoiseRun
    rw [show (c :: rest).length = rest.length + 1 from rfl,
      subNoiseAux_cons_match rest.length c rest r h]
    have hr := matchNoise_shrink _ _ h
    simp only [List.length_cons] at hr
    exact subNoiseAux_fuel rest.length false r r.length (by omega) le_rfl

theorem subNoiseRun_nomatch (c : Char) (rest : List Char)
    (h : matchNoise (c :: rest) = none) :
    subNoiseRun true (c :: rest) = c :: subNoiseRun (c == '\n') rest := by
  unfold subNoiseRun
  rw [show (c :: rest).length = rest.length + 1 from rfl,
    subNoiseAux_cons_nomatch rest.length c rest h]

theorem subNoiseRun_emit (m : List Char) (hnl : '\n' ∉ m) :
    ∀ z, subNoiseRun false (m ++ z) = m ++ subNoiseRun false z := by
  induction m with
  | nil => intro z; rfl
  | cons c m2 ih =>
    intro z
    have hc : (c == '\n') = false := by
      rw [beq_eq_false_iff_ne]
      intro he
      exact hnl (he ▸ List.mem_cons_self c m2)
    rw [List.cons_append, subNoiseRun_cons_false, hc,
      ih (fun hm => hnl (List.mem_cons_of_mem c hm)) z]
    rfl

theorem subNoiseRun_newline (z : List Char) :
    subNoiseRun false ('\n' :: z) = '\n' :: subNoiseRun true z := by
  rw [subNoiseRun_cons_false]
  rfl

/-- Scanning a matchless newline-free line followed by a newline:
the line and the newline are emitted, and the scan continues at the
next line start. -/
theorem subNoiseRun_line_emit (line z : List Char) (hnl : '\n' ∉ line)
    (h : matchNoise (line ++ '\n' :: z) = none) :
    subNoiseRun true (line ++ '\n' :: z)
      = line ++ '\n' :: subNoiseRun true z := by
  cases line with
  | nil =>
    rw [List.nil_append] at h ⊢
    rw [subNoiseRun_nomatch '\n' z h]
    rfl
  | cons c line2 =>
    rw [List.cons_append] at h ⊢
    rw [subNoiseRun_nomatch c (line2 ++ '\n' :: z) h]
    have hc : (c == '\n') = false := by
      rw [beq_eq_false_iff_ne]
      intro he
      exact hnl (he ▸ List.mem_cons_self c line2)
    rw [hc, subNoiseRun_emit line2
      (fun hm => hnl (List.mem_cons_of_mem c hm)) ('\n' :: z),
      subNoiseRun_newline, List.cons_append]

/-- Scanning a matchless newline-free final line: it is emitted
verbatim. -/
theorem subNoiseRun_line_last (line : List Char) (hnl : '\n' ∉ line)
    (h : matchNoise line = none) :
    subNoiseRun true line = line := by
  cases line with
  | nil => rfl
  | cons c line2 =>
    rw [subNoiseRun_nomatch c line2 h]
    have hc : (c == '\n') = false := by
      rw [beq_eq_false_iff_ne]
      intro he
      exact hnl (he ▸ List.mem_cons_self c line2)
    rw [hc]
    have := subNoiseRun_emit line2
      (fun hm => hnl (List.mem_cons_of_mem c hm)) []
    rw [List.append_nil] at this
    rw [this, subNoiseRun_nil, List.append_nil]

theorem dropWhile_append_of_ne_nil (p : Char → Bool) (a b : List Char)
    (h : a.dropWhile p ≠ []) :
    (a ++ b).dropWhile p = a.dropWhile p ++ b := by
  induction a with
  | nil => exact absurd rfl h
  | cons c t ih =>
    by_cases hpc : p c = true
    · rw [List.dropWhile_cons, if_pos hpc] at h
      rw [List.cons_append, List.dropWhile_cons, if_pos hpc,
        List.dropWhile_cons, if_pos hpc]
      exact ih h
    · rw [List.cons_append, List.dropWhile_cons, if_neg hpc,
        List.dropWhile_cons, if_neg hpc, List.cons_append]

theorem dropWhile_append_all (p : Char → Bool) (a b : List Char)
    (h : ∀ c ∈ a, p c = true) :
    (a ++ b).dropWhile p = b.dropWhile p := by
  induction a with
  | nil => rfl
  | cons c t ih =>
    rw [List.cons_append, List.dropWhile_cons,
      if_pos (h c (List.mem_cons_self c t))]
    exact ih (fun x hx => h x (List.mem_cons_of_mem c hx))

theorem dropWhile_all_nil (p : Char → Bool) (l : List Char)
    (h : ∀ c ∈ l, p c = true) : l.dropWhile p = [] := by
  induction l with
  | nil => rfl
  | cons c t ih =>
    rw [List.dropWhile_cons, if_pos (h c (List.mem_cons_self c t))]
    exact ih (fun x hx => h x (List.mem_cons_of_mem c hx))

theorem dropWhile_ne_nil_of_exists (p : Char → Bool) (l : List Char)
    (h : ∃ c ∈ l, p c = false) : l.dropWhile p ≠ [] := by
  induction l with
  | nil =>
    obtain ⟨c, hc, _⟩ := h
    simp at hc
  | cons a t ih =>
    by_cases hpa : p a = true
    · rw [List.dropWhile_cons, if_pos hpa]
      apply ih
      obtain ⟨c, hc, hcp⟩ := h
      rcases List.mem_cons.mp hc with h1 | h1
      · rw [h1, hpa] at hcp
        exact Bool.noConfusion hcp
      · exact ⟨c, h1, hcp⟩
    · rw [List.dropWhile_cons, if_neg hpa]
      simp

theorem all_false_exists (p : Char → Bool) (l : List Char)
    (h : l.all p = false) : ∃ c ∈ l, p c = false := by
  by_contra hno
  have : l.all p = true := List.all_eq_true.mpr (fun x hx => by
    cases hpx : p x
    · exact absurd ⟨x, hx, hpx⟩ hno
    · rfl)
  rw [this] at h
  exact Bool.noConfusion h

theorem takeWhile_all_append (p : Char → Bool) (a b : List Char)
    (ha : ∀ c ∈ a, p c = true)
    (hb : b = [] ∨ ∃ c r, b = c :: r ∧ p c = false) :
    (a ++ b).takeWhile p = a := by
  induction a with
  | nil =>
    rcases hb with h | ⟨c, r, hbr, hpc⟩
    · subst h; rfl
    · subst hbr
      rw [List.nil_append, List.takeWhile_cons, if_neg (by rw [hpc]; simp)]
  | cons x t ih =>
    rw [List.cons_append, List.takeWhile_cons,
      if_pos (ha x (List.mem_cons_self x t)),
      ih (fun c hc => ha c (List.mem_cons_of_mem x hc))]

theorem takeWhile_stop (p : Char → Bool) (a b : List Char)
    (h : a.dropWhile p ≠ []) :
    (a ++ b).takeWhile p = a.takeWhile p := by
  induction a with
  | nil => exact absurd rfl h
  | cons c t ih =>
    by_cases hpc : p c = true
    · rw [List.dropWhile_cons, if_pos hpc] at h
      rw [List.cons_append, List.takeWhile_cons, if_pos hpc,
        List.takeWhile_cons, if_pos hpc, ih h]
    · rw [List.cons_append, List.takeWhile_cons, if_neg hpc,
        List.takeWhile_cons, if_neg hpc]

theorem trim_all_ws (l : List Char) (h : ∀ c ∈ l, isPySpace c = true) :
    trimChars l = [] := by
  unfold trimChars
  rw [dropWhile_all_nil isPySpace l h]
  rfl

theorem joinLines_splitOnChar (m : List Char) :
    joinLines (splitOnChar '\n' m) = m := by
  induction m with
  | nil => rfl
  | cons c rest ih =>
    cases hsp : splitOnChar '\n' rest with
    | nil => exact absurd hsp (splitOnChar_ne_nil _ rest)
    | cons h t =>
      rw [hsp] at ih
      by_cases hc : (c == '\n') = true
      · have heq : splitOnChar '\n' (c :: rest) = [] :: h :: t := by
          simp [splitOnChar, hsp, hc]
        rw [heq]
        show '\n' :: joinLines (h :: t) = c :: rest
        rw [ih, beq_iff_eq.mp hc]
      · have heq : splitOnChar '\n' (c :: rest) = (c :: h) :: t := by
          simp [splitOnChar, hsp, hc]
        rw [heq]
        cases t with
        | nil =>
          show c :: h = c :: rest
          rw [show h = rest from ih]
        | cons t1 t2 =>
          show c :: (h ++ '\n' :: joinLines (t1 :: t2)) = c :: rest
          rw [show h ++ '\n' :: joinLines (t1 :: t2) = rest from ih]

theorem stripLines_nil : stripLines [] = [] := rfl

theorem stripLines_cons (x : List Char) (X : List (List Char)) :
    stripLines (x :: X)
      = if (trimChars x).isEmpty = true then stripLines X
        else trimChars x :: stripLines X := by
  unfold stripLines
  rw [List.map_cons, List.filter_cons]
  cases h : (trimChars x).isEmpty
  · simp [h]
  · simp [h]

theorem ws_char_cases (c : Char) (h : isPySpace c = true) :
    c = ' ' ∨ c = '\t' ∨ c = '\n' ∨ c = '\r' ∨ c = '\x0b' ∨ c = '\x0c' := by
  simp [isPySpace] at h
  tauto

theorem matchCoAuth_ws_start (s : List Char)
    (h : s = [] ∨ ∃ c z, s = c :: z ∧ isPySpace c = true) :
    matchCoAuth s = none := by
  unfold matchCoAuth
  rcases h with h | ⟨c, z, hs, hws⟩
  · subst h
    rw [if_neg (by decide)]
  · subst hs
    have hcl : ('c' == c.toLower) = false := by
      rcases ws_char_cases c hws with h|h|h|h|h|h <;> subst h <;> decide
    have hfalse : coAuthoredMarker.isPrefixOf (lowerChars (c :: z)) = false := by
      rw [lowerChars_cons]
      have h2 : coAuthoredMarker.isPrefixOf (c.toLower :: lowerChars z)
          = (('c' == c.toLower) &&
            (['o', '-', 'a', 'u', 't', 'h', 'o', 'r', 'e', 'd', '-',
              'b', 'y'].isPrefixOf (lowerChars z))) := rfl
      rw [h2, hcl]
      rfl
    rw [hfalse]
    simp

theorem matchRef1_skip_ws (l z : List Char)
    (hws : ∀ c ∈ l, isPySpace c = true) :
    matchRef1 (l ++ z) = matchRef1 z := by
  unfold matchRef1
  rw [dropWhile_append_all isPySpace l z hws]

theorem matchRefTail_eq (w : List Char) :
    matchRefTail w = isHashNum (w.dropWhile isPySpace) := by
  unfold matchRefTail isHashNum
  rfl

theorem isHashNum_cons_ne (c : Char) (l : List Char) (h : c ≠ '#') :
    isHashNum (c :: l) = false := by
  unfold isHashNum
  split
  next heq => injection heq with h1 _; exact absurd h1 h
  next => rfl

theorem matchHashTail_cons_ne (c : Char) (l : List Char) (h : c ≠ '#') :
    matchHashTail (c :: l) = none := by
  unfold matchHashTail
  split
  next heq => injection heq with h1 _; exact absurd h1 h
  next => rfl

theorem matchHashTail_append (w y : List Char) (hnl : '\n' ∉ w)
    (hy : y = [] ∨ ∃ y2, y = '\n' :: y2) :
    matchHashTail (w ++ y) = if isHashNum w = true then some y else none := by
  cases w with
  | nil =>
    rw [List.nil_append, if_neg (by decide)]
    rcases hy with h | ⟨y2, h⟩ <;> subst h <;> rfl
  | cons c w2 =>
    rw [List.cons_append]
    by_cases hc : c = '#'
    · subst hc
      by_cases hw2 : w2 = []
      · subst hw2
        rw [List.nil_append]
        have h2 : isHashNum ['#'] = false := rfl
        rw [h2, if_neg (by decide)]
        rcases hy with h | ⟨y2, h⟩ <;> subst h <;> rfl
      · have hne : w2.isEmpty = false := by
          cases w2 with
          | nil => exact absurd rfl hw2
          | cons a t => rfl
        by_cases hall : w2.all Char.isDigit = true
        · have hyd : y = [] ∨ ∃ c r, y = c :: r ∧ Char.isDigit c = false := by
            rcases hy with h | ⟨y2, h⟩
            · exact Or.inl h
            · exact Or.inr ⟨'\n', y2, h, rfl⟩
          have htk : (w2 ++ y).takeWhile Char.isDigit = w2 :=
            takeWhile_all_append _ _ _
              (fun x hx => List.all_eq_true.mp hall x hx) hyd
          have hhn : isHashNum ('#' :: w2) = true := by
            simp only [isHashNum]
            rw [hne, hall]
            rfl
          simp only [matchHashTail]
          rw [htk, hne, if_neg (by decide), List.drop_left, hhn, if_pos rfl]
          rcases hy with h | ⟨y2, h⟩ <;> subst h <;> rfl
        · have hallf : w2.all Char.isDigit = false := by
            cases hq : w2.all Char.isDigit
            · rfl
            · exact absurd hq hall
          have hex := all_false_exists _ _ hallf
          have hdw : w2.dropWhile Char.isDigit ≠ [] :=
            dropWhile_ne_nil_of_exists _ _ hex
          have htk : (w2 ++ y).takeWhile Char.isDigit
              = w2.takeWhile Char.isDigit := takeWhile_stop _ _ _ hdw
          have hhn : isHashNum ('#' :: w2) = false := by
            simp only [isHashNum]
            rw [hallf]
            simp
          simp only [matchHashTail]
          rw [htk, hhn]
          by_cases hemp : (w2.takeWhile Char.isDigit).isEmpty = true
          · rw [if_pos hemp, if_neg (by decide)]
          · rw [if_neg hemp, if_neg (by decide)]
            have hTD : w2.takeWhile Char.isDigit
                ++ w2.dropWhile Char.isDigit = w2 :=
              List.takeWhile_append_dropWhile Char.isDigit w2
            have hsplit : w2 ++ y = w2.takeWhile Char.isDigit
                ++ (w2.dropWhile Char.isDigit ++ y) := by
              rw [← List.append_assoc, hTD]
            rw [hsplit, List.drop_left]
            cases hD : w2.dropWhile Char.isDigit with
            | nil => exact absurd hD hdw
            | cons c0 D2 =>
              have hc0 : c0 ≠ '\n' := by
                intro he
                apply hnl
                apply List.mem_cons_of_mem
                have : c0 ∈ w2 := mem_dropWhile Char.isDigit w2 c0
                  (by rw [hD]; exact List.mem_cons_self c0 D2)
                rw [← he]
                exact this
              rw [List.cons_append]
              split
              next heq => exact absurd heq (by simp)
              next heq => injection heq with h1 _; exact absurd h1 hc0
              next => rfl
    · have h1 : matchHashTail (c :: (w2 ++ y)) = none :=
        matchHashTail_cons_ne c _ hc
      have h2 : isHashNum (c :: w2) = false := isHashNum_cons_ne c w2 hc
      rw [h1, h2, if_neg (by decide)]

theorem matchCoAuth_append (w y : List Char) (hnl : '\n' ∉ w)
    (hy : y = [] ∨ ∃ y2, y = '\n' :: y2) :
    matchCoAuth (w ++ y) = if isCoAuthoredLine w = true then some y
      else none := by
  unfold matchCoAuth isCoAuthoredLine
  cases hpre : coAuthoredMarker.isPrefixOf (lowerChars w) with
  | true =>
    have hpre2 : coAuthoredMarker.isPrefixOf (lowerChars (w ++ y))
        = true := by
      rw [lowerChars_append]
      exact isPrefixOf_append_left _ _ _ hpre
    rw [if_pos hpre2, if_pos rfl]
    have hlen : coAuthoredMarker.length ≤ w.length := by
      have := isPrefixOf_length_le _ _ hpre
      rwa [lowerChars_length] at this
    rw [List.drop_append_of_le_length hlen]
    have hall : ∀ c ∈ w.drop coAuthoredMarker.length,
        (c != '\n') = true := by
      intro c hc
      exact bne_iff_ne.mpr (fun he => hnl (he ▸ List.mem_of_mem_drop hc))
    rw [dropWhile_append_all _ _ y hall]
    rcases hy with h | ⟨y2, h⟩
    · subst h; rfl
    · subst h
      rw [List.dropWhile_cons, if_neg (by simp)]
  | false =>
    have hpre2 : coAuthoredMarker.isPrefixOf (lowerChars (w ++ y))
        = false := by
      cases hq : coAuthoredMarker.isPrefixOf (lowerChars (w ++ y)) with
      | false => rfl
      | true =>
        exfalso
        rcases hy with h | ⟨y2, h⟩
        · subst h
          rw [List.append_nil, hpre] at hq
          exact Bool.noConfusion hq
        · subst h
          rw [lowerChars_append] at hq
          have hconv : lowerChars ('\n' :: y2) = '\n' :: lowerChars y2 := rfl
          rw [hconv] at hq
          have := isPrefixOf_append_split _ _ _ _ hq (by decide)
          rw [this] at hpre
          exact Bool.noConfusion hpre
    rw [if_neg (by rw [hpre2]; simp), if_neg (by decide)]

theorem matchRef1_append (w y : List Char) (hnl : '\n' ∉ w)
    (hwne : w.dropWhile isPySpace ≠ [])
    (hbare : isBareKeywordLine w = false)
    (hy : y = [] ∨ ∃ y2, y = '\n' :: y2) :
    matchRef1 (w ++ y) = if isRefLine w = true then some y else none := by
  unfold matchRef1
  rw [dropWhile_append_of_ne_nil isPySpace w y hwne]
  cases hdk : dropKeyword (w.dropWhile isPySpace) with
  | none =>
    have h2 : dropKeyword (w.dropWhile isPySpace ++ y) = none := by
      cases hq : dropKeyword (w.dropWhile isPySpace ++ y) with
      | none => rfl
      | some r =>
        obtain ⟨v, hv, _⟩ := dropKeyword_append_confined _ y r hy hq
        rw [hv] at hdk
        exact Option.noConfusion hdk
    have h3 : isRefLine w = false := by
      unfold isRefLine
      rw [hdk]
    rw [h2, h3, if_neg (by decide)]
  | some rest =>
    rw [dropKeyword_append _ y rest hdk]
    show matchHashTail ((rest ++ y).dropWhile isPySpace)
      = if isRefLine w = true then some y else none
    have hrw : '\n' ∉ rest := by
      obtain ⟨k, _, _, hr, _⟩ := dropKeyword_some_elim _ _ hdk
      intro hmem
      apply hnl
      rw [hr] at hmem
      exact mem_dropWhile isPySpace w '\n' (List.mem_of_mem_drop hmem)
    have hrest_nb : rest.all isPySpace = false := by
      unfold isBareKeywordLine at hbare
      rw [hdk] at hbare
      exact hbare
    have hdwne : rest.dropWhile isPySpace ≠ [] :=
      dropWhile_ne_nil_of_exists _ _ (all_false_exists _ _ hrest_nb)
    rw [dropWhile_append_of_ne_nil isPySpace rest y hdwne]
    have hnl2 : '\n' ∉ rest.dropWhile isPySpace :=
      fun h => hrw (mem_dropWhile _ _ _ h)
    rw [matchHashTail_append _ y hnl2 hy]
    have h4 : isRefLine w = isHashNum (rest.dropWhile isPySpace) := by
      unfold isRefLine
      rw [hdk]
      show matchRefTail rest = isHashNum (rest.dropWhile isPySpace)
      exact matchRefTail_eq rest
    rw [h4]

theorem matchNoise_append (w y : List Char) (hnl : '\n' ∉ w)
    (hwne : w.dropWhile isPySpace ≠ [])
    (hbare : isBareKeywordLine w = false)
    (hy : y = [] ∨ ∃ y2, y = '\n' :: y2) :
    matchNoise (w ++ y) = if isNoiseLine w = true then some y else none := by
  unfold matchNoise
  rw [matchRef1_append w y hnl hwne hbare hy]
  cases href : isRefLine w with
  | true =>
    have h2 : isNoiseLine w = true := by
      unfold isNoiseLine
      rw [href]
      rfl
    rw [h2]
    rfl
  | false =>
    have h2 : isNoiseLine w = isCoAuthoredLine w := by
      unfold isNoiseLine
      rw [href]
      exact Bool.false_or _
    rw [h2]
    show matchCoAuth (w ++ y) = if isCoAuthoredLine w = true then some y
      else none
    exact matchCoAuth_append w y hnl hy

theorem matchRef1_nil : matchRef1 [] = none := rfl

theorem splitOnChar_cons_sep (b : List Char) :
    splitOnChar '\n' ('\n' :: b) = [] :: splitOnChar '\n' b := by
  have h := splitOnChar_append '\n' [] b (by simp)
  rwa [List.nil_append] at h

theorem all_ws_of_dropWhile_nil (l : List Char)
    (h : l.dropWhile isPySpace = []) : ∀ c ∈ l, isPySpace c = true := by
  intro c hc
  cases hq : isPySpace c
  · exact absurd h (dropWhile_ne_nil_of_exists isPySpace l ⟨c, hc, hq⟩)
  · rfl

theorem matchNoise_of_ref (s r : List Char) (h : matchRef1 s = some r) :
    matchNoise s = some r := by
  unfold matchNoise
  rw [h]

theorem matchNoise_of_none (s : List Char) (h1 : matchRef1 s = none)
    (h2 : matchCoAuth s = none) : matchNoise s = none := by
  unfold matchNoise
  rw [h1]
  exact h2

/-- On a message without bare-keyword lines, the faithful scan followed
by per-line stripping agrees with the line-by-line reading: exactly the
lines matching the pattern within themselves disappear. -/
theorem subNoise_lines (L : List (List Char))
    (hnl : ∀ l ∈ L, '\n' ∉ l)
    (hbare : ∀ l ∈ L, isBareKeywordLine l = false) :
    stripLines (splitOnChar '\n' (subNoiseRun true (joinLines L)))
      = stripLines (L.filter (fun l => !isNoiseLine l)) := by
  induction L with
  | nil => rfl
  | cons l L2 ih =>
    have hnl_l : '\n' ∉ l := hnl l (List.mem_cons_self l L2)
    have hbare_l : isBareKeywordLine l = false :=
      hbare l (List.mem_cons_self l L2)
    have ih2 := ih (fun x hx => hnl x (List.mem_cons_of_mem l hx))
      (fun x hx => hbare x (List.mem_cons_of_mem l hx))
    cases L2 with
    | nil =>
      show stripLines (splitOnChar '\n' (subNoiseRun true l))
          = stripLines (List.filter (fun x => !isNoiseLine x) [l])
      by_cases hws : l.dropWhile isPySpace = []
      · have hallws := all_ws_of_dropWhile_nil l hws
        have hm : matchNoise l = none := by
          apply matchNoise_of_none
          · have h1 := matchRef1_skip_ws l [] hallws
            rw [List.append_nil] at h1
            rw [h1]
            exact matchRef1_nil
          · apply matchCoAuth_ws_start
            cases l with
            | nil => exact Or.inl rfl
            | cons c z =>
              exact Or.inr ⟨c, z, rfl, hallws c (List.mem_cons_self c z)⟩
        have hsl : stripLines [l] = [] := by
          rw [stripLines_cons, if_pos (by rw [trim_all_ws l hallws]; rfl)]
          rfl
        have hR : stripLines (List.filter (fun x => !isNoiseLine x) [l])
            = [] := by
          rw [List.filter_cons]
          cases hn : isNoiseLine l
          · exact hsl
          · rfl
        rw [subNoiseRun_line_last l hnl_l hm,
          splitOnChar_of_not_mem '\n' l hnl_l, hsl, hR]
      · have hm := matchNoise_append l [] hnl_l hws hbare_l (Or.inl rfl)
        rw [List.append_nil] at hm
        cases hn : isNoiseLine l
        · rw [hn] at hm
          have hm2 : matchNoise l = none := by rw [hm]; rfl
          rw [subNoiseRun_line_last l hnl_l hm2,
            splitOnChar_of_not_mem '\n' l hnl_l, List.filter_cons, hn]
          rfl
        · rw [hn] at hm
          have hm2 : matchNoise l = some [] := by rw [hm]; rfl
          have hlne : l ≠ [] := by
            intro he
            rw [he] at hws
            exact hws rfl
          rw [subNoiseRun_match l [] hlne hm2, subNoiseRun_nil,
            List.filter_cons, hn]
          rfl
    | cons l2 L3 =>
      show stripLines (splitOnChar '\n'
          (subNoiseRun true (l ++ '\n' :: joinLines (l2 :: L3))))
        = stripLines (List.filter (fun x => !isNoiseLine x) (l :: l2 :: L3))
      by_cases hws : l.dropWhile isPySpace = []
      · have hallws := all_ws_of_dropWhile_nil l hws
        have hlws : ∀ c ∈ l ++ ['\n'], isPySpace c = true := by
          intro c hc
          rcases List.mem_append.mp hc with h | h
          · exact hallws c h
          · rw [List.mem_singleton.mp h]
            rfl
        have hassoc : l ++ '\n' :: joinLines (l2 :: L3)
            = (l ++ ['\n']) ++ joinLines (l2 :: L3) := by
          rw [List.append_assoc]
          rfl
        have hco : matchCoAuth (l ++ '\n' :: joinLines (l2 :: L3))
            = none := by
          apply matchCoAuth_ws_start
          cases l with
          | nil => exact Or.inr ⟨'\n', joinLines (l2 :: L3), rfl, rfl⟩
          | cons c z =>
            exact Or.inr ⟨c, z ++ '\n' :: joinLines (l2 :: L3), rfl,
              hallws c (List.mem_cons_self c z)⟩
        have hskip : matchRef1 (l ++ '\n' :: joinLines (l2 :: L3))
            = matchRef1 (joinLines (l2 :: L3)) := by
          rw [hassoc]
          exact matchRef1_skip_ws (l ++ ['\n']) _ hlws
        have htr : trimChars l = [] := trim_all_ws l hallws
        have hfl : stripLines (List.filter (fun x => !isNoiseLine x)
              (l :: l2 :: L3))
            = stripLines (List.filter (fun x => !isNoiseLine x)
              (l2 :: L3)) := by
          rw [List.filter_cons]
          cases hn : isNoiseLine l
          · show stripLines
                (l :: List.filter (fun x => !isNoiseLine x) (l2 :: L3)) = _
            rw [stripLines_cons, if_pos (by rw [htr]; rfl)]
          · rfl
        cases hr : matchRef1 (joinLines (l2 :: L3)) with
        | some r =>
          have hm1 : matchNoise (l ++ '\n' :: joinLines (l2 :: L3))
              = some r := matchNoise_of_ref _ r (by rw [hskip]; exact hr)
          have hm2 : matchNoise (joinLines (l2 :: L3)) = some r :=
            matchNoise_of_ref _ r hr
          have hJne : joinLines (l2 :: L3) ≠ [] := by
            intro he
            rw [he, matchRef1_nil] at hr
            exact Option.noConfusion hr
          have hwne : l ++ '\n' :: joinLines (l2 :: L3) ≠ [] := by
            cases l <;> simp
          rw [subNoiseRun_match _ r hwne hm1,
            ← subNoiseRun_match _ r hJne hm2, ih2, hfl]
        | none =>
          have hm1 : matchNoise (l ++ '\n' :: joinLines (l2 :: L3))
              = none := matchNoise_of_none _ (by rw [hskip]; exact hr) hco
          rw [subNoiseRun_line_emit l _ hnl_l hm1,
            splitOnChar_append '\n' l _ hnl_l,
            stripLines_cons, if_pos (by rw [htr]; rfl), ih2, hfl]
      · have hm := matchNoise_append l ('\n' :: joinLines (l2 :: L3)) hnl_l
          hws hbare_l (Or.inr ⟨joinLines (l2 :: L3), rfl⟩)
        cases hn : isNoiseLine l
        · rw [hn] at hm
          have hm2 : matchNoise (l ++ '\n' :: joinLines (l2 :: L3))
              = none := by rw [hm]; rfl
          have hRf : List.filter (fun x => !isNoiseLine x) (l :: l2 :: L3)
              = l :: List.filter (fun x => !isNoiseLine x) (l2 :: L3) := by
            rw [List.filter_cons, hn]
            rfl
          rw [subNoiseRun_line_emit l _ hnl_l hm2,
            splitOnChar_append '\n' l _ hnl_l, stripLines_cons, ih2, hRf,
            stripLines_cons]
        · rw [hn] at hm
          have hm2 : matchNoise (l ++ '\n' :: joinLines (l2 :: L3))
              = some ('\n' :: joinLines (l2 :: L3)) := by rw [hm]; rfl
          have hRf : List.filter (fun x => !isNoiseLine x) (l :: l2 :: L3)
              = List.filter (fun x => !isNoiseLine x) (l2 :: L3) := by
            rw [List.filter_cons, hn]
            rfl
          have hwne : l ++ '\n' :: joinLines (l2 :: L3) ≠ [] := by
            cases l <;> simp
          rw [subNoiseRun_match _ _ hwne hm2, subNoiseRun_newline,
            splitOnChar_cons_sep, hRf]
          show stripLines (splitOnChar '\n'
              (subNoiseRun true (joinLines (l2 :: L3))))
            = stripLines (List.filter (fun x => !isNoiseLine x) (l2 :: L3))
          exact ih2

theorem dropKeyword_nonletter (d : Char) (z : List Char)
    (hf : ('f' == d.toLower) = false) (hc : ('c' == d.toLower) = false)
    (hr : ('r' == d.toLower) = false) (ha : ('a' == d.toLower) = false)
    (hp : ('p' == d.toLower) = false) :
    dropKeyword (d :: z) = none := by
  unfold dropKeyword
  have hnone : refKeywords.find?
      (fun k => k.isPrefixOf (lowerChars (d :: z))) = none := by
    rw [List.find?_eq_none]
    intro k hk
    fin_cases hk <;>
      rw [lowerChars_cons, isPrefixOf_cons_cons] <;>
      first
        | (rw [hf]; simp)
        | (rw [hc]; simp)
        | (rw [hr]; simp)
        | (rw [ha]; simp)
        | (rw [hp]; simp)
  rw [hnone]
  rfl

theorem isCoAuthoredLine_head_ne (d : Char) (z : List Char)
    (h : ('c' == d.toLower) = false) :
    isCoAuthoredLine (d :: z) = false := by
  unfold isCoAuthoredLine coAuthoredMarker
  rw [lowerChars_cons, isPrefixOf_cons_cons, h, Bool.false_and]

theorem isRefLine_indent (d : List Char) :
    isRefLine (' ' :: ' ' :: d) = isRefLine d := rfl

theorem isBareKeywordLine_indent (d : List Char) :
    isBareKeywordLine (' ' :: ' ' :: d) = isBareKeywordLine d := rfl

theorem isNoiseLine_indent (d : List Char) :
    isNoiseLine (' ' :: ' ' :: d) = isRefLine d := by
  unfold isNoiseLine
  rw [isRefLine_indent, isCoAuthoredLine_head_ne ' ' _ (by decide),
    Bool.or_false]

theorem dropKeyword_plus (z : List Char) : dropKeyword ('+' :: z) = none :=
  dropKeyword_nonletter '+' z (by decide) (by decide) (by decide)
    (by decide) (by decide)

theorem isNoiseLine_title (t : List Char) :
    isNoiseLine ('+' :: ' ' :: t) = false := by
  unfold isNoiseLine isRefLine
  rw [show List.dropWhile isPySpace ('+' :: ' ' :: t)
    = '+' :: ' ' :: t from rfl]
  rw [dropKeyword_plus, isCoAuthoredLine_head_ne '+' _ (by decide)]
  rfl

theorem isBareKeywordLine_title (t : List Char) :
    isBareKeywordLine ('+' :: ' ' :: t) = false := by
  unfold isBareKeywordLine
  rw [show List.dropWhile isPySpace ('+' :: ' ' :: t)
    = '+' :: ' ' :: t from rfl]
  rw [dropKeyword_plus]

theorem isRefLine_not_bare (l : List Char) (h : isRefLine l = true) :
    isBareKeywordLine l = false := by
  unfold isRefLine at h
  unfold isBareKeywordLine
  cases hdk : dropKeyword (l.dropWhile isPySpace) with
  | none => rw [hdk] at h
  | some rest =>
    rw [hdk] at h
    show rest.all isPySpace = false
    have h2 : matchRefTail rest = true := h
    rw [matchRefTail_eq] at h2
    cases hq : rest.all isPySpace
    · rfl
    · exfalso
      rw [dropWhile_all_nil isPySpace rest (List.all_eq_true.mp hq)] at h2
      exact Bool.noConfusion h2

theorem dropWhile_indent (d : List Char) (hne : d ≠ [])
    (hhead : ∀ a r, d = a :: r → isPySpace a = false) :
    List.dropWhile isPySpace (' ' :: ' ' :: d) = d := by
  cases hd : d with
  | nil => exact absurd hd hne
  | cons a r =>
    show List.dropWhile isPySpace (a :: r) = a :: r
    exact dropWhile_cons_false isPySpace a r (hhead a r hd)

theorem renormDescs_cons (d : List Char) (rest : List (List Char)) :
    renormDescs (d :: rest)
      = if isRefLine d = true then renormDescs rest
        else if isBareKeywordLine d = true then
          match rest with
          | [] => [d]
          | d2 :: rest2 =>
            if isHashNum d2 = true then renormDescs rest2
            else d :: renormDescs (d2 :: rest2)
        else d :: renormDescs rest := by
  rw [renormDescs.eq_def]

theorem renormDescs_ref (d : List Char) (rest : List (List Char))
    (h : isRefLine d = true) :
    renormDescs (d :: rest) = renormDescs rest := by
  rw [renormDescs_cons, h]
  rfl

theorem renormDescs_bare_nil (d : List Char) (h1 : isRefLine d = false)
    (h2 : isBareKeywordLine d = true) :
    renormDescs [d] = [d] := by
  rw [renormDescs_cons, h1, h2]
  rfl

theorem renormDescs_bare_hash (d d2 : List Char)
    (rest2 : List (List Char)) (h1 : isRefLine d = false)
    (h2 : isBareKeywordLine d = true) (h3 : isHashNum d2 = true) :
    renormDescs (d :: d2 :: rest2) = renormDescs rest2 := by
  rw [renormDescs_cons, h1, h2]
  show (if isHashNum d2 = true then renormDescs rest2
    else d :: renormDescs (d2 :: rest2)) = renormDescs rest2
  rw [h3]
  rfl

theorem renormDescs_bare_nohash (d d2 : List Char)
    (rest2 : List (List Char)) (h1 : isRefLine d = false)
    (h2 : isBareKeywordLine d = true) (h3 : isHashNum d2 = false) :
    renormDescs (d :: d2 :: rest2) = d :: renormDescs (d2 :: rest2) := by
  rw [renormDescs_cons, h1, h2]
  show (if isHashNum d2 = true then renormDescs rest2
    else d :: renormDescs (d2 :: rest2)) = d :: renormDescs (d2 :: rest2)
  rw [h3]
  rfl

theorem renormDescs_keep (d : List Char) (rest : List (List Char))
    (h1 : isRefLine d = false) (h2 : isBareKeywordLine d = false) :
    renormDescs (d :: rest) = d :: renormDescs rest := by
  rw [renormDescs_cons, h1, h2]
  rfl

theorem joinLines_map_cons (f : List Char → List Char) (x : List Char)
    (xs : List (List Char)) :
    ∃ t, joinLines ((x :: xs).map f) = f x ++ t
      ∧ (t = [] ∨ ∃ t2, t = '\n' :: t2) := by
  cases xs with
  | nil => exact ⟨[], (List.append_nil (f x)).symm, Or.inl rfl⟩
  | cons b bs =>
    exact ⟨'\n' :: joinLines ((b :: bs).map f), rfl, Or.inr ⟨_, rfl⟩⟩

theorem matchRef1_bare_start (d y rb : List Char) (hdne : d ≠ [])
    (hhead : ∀ a r, d = a :: r → isPySpace a = false)
    (hdk : dropKeyword d = some rb) (hrb : rb.all isPySpace = true) :
    matchRef1 ((' ' :: ' ' :: d) ++ y)
      = matchHashTail (y.dropWhile isPySpace) := by
  unfold matchRef1
  have hdwy : List.dropWhile isPySpace ((' ' :: ' ' :: d) ++ y)
      = d ++ y := by
    cases hd : d with
    | nil => exact absurd hd hdne
    | cons a r =>
      show List.dropWhile isPySpace ((a :: r) ++ y) = (a :: r) ++ y
      rw [List.cons_append]
      exact dropWhile_cons_false isPySpace a (r ++ y) (hhead a r hd)
  rw [hdwy, dropKeyword_append d y rb hdk]
  show matchHashTail ((rb ++ y).dropWhile isPySpace) = _
  rw [dropWhile_append_all isPySpace rb y (List.all_eq_true.mp hrb)]

/-- One more scan pass over the description block of a rendered
fragment (lines `"  " ++ d` with each `d` trimmed, nonempty and
newline-free): a line whose content matches the reference pattern
within itself is dropped; a line whose content is a bare keyword,
followed by a line whose content is exactly `#digits`, is dropped
together with that line (the pattern's second `\s*` spans their
newline); every other line survives and re-strips to its content. -/
theorem descScan (n : Nat) : ∀ ds : List (List Char), ds.length ≤ n →
    (∀ d ∈ ds, d ≠ []) → (∀ d ∈ ds, trimChars d = d) →
    (∀ d ∈ ds, '\n' ∉ d) →
    stripLines (splitOnChar '\n' (subNoiseRun true
        (joinLines (ds.map (fun d => ' ' :: ' ' :: d)))))
      = renormDescs ds := by
  induction n with
  | zero =>
    intro ds hlen h1 h2 h3
    cases ds with
    | nil => rfl
    | cons d rest => simp at hlen
  | succ n ihn =>
    intro ds hlen h1 h2 h3
    cases ds with
    | nil => rfl
    | cons d rest =>
      have hdne : d ≠ [] := h1 d (List.mem_cons_self d rest)
      have htrd : trimChars d = d := h2 d (List.mem_cons_self d rest)
      have hnld : '\n' ∉ d := h3 d (List.mem_cons_self d rest)
      have h1t : ∀ x ∈ rest, x ≠ [] :=
        fun x hx => h1 x (List.mem_cons_of_mem d hx)
      have h2t : ∀ x ∈ rest, trimChars x = x :=
        fun x hx => h2 x (List.mem_cons_of_mem d hx)
      have h3t : ∀ x ∈ rest, '\n' ∉ x :=
        fun x hx => h3 x (List.mem_cons_of_mem d hx)
      have hlen2 : rest.length ≤ n := by
        simp only [List.length_cons] at hlen
        omega
      have hhead : ∀ a r, d = a :: r → isPySpace a = false := fun a r hh =>
        trimChars_head d a r (by rw [htrd, hh])
      have hlast : ∀ a r, d.reverse = a :: r → isPySpace a = false :=
        fun a r hh => trimChars_last d a r (by rw [htrd]; exact hh)
      have htw : trimChars (' ' :: ' ' :: d) = d :=
        trim_desc_line d hdne hhead hlast
      have hnlw : '\n' ∉ (' ' :: ' ' :: d) := by
        intro hm
        rcases List.mem_cons.mp hm with hcc | hm2
        · exact absurd hcc (by decide)
        · rcases List.mem_cons.mp hm2 with hcc | hcc
          · exact absurd hcc (by decide)
          · exact hnld hcc
      have hdw : List.dropWhile isPySpace (' ' :: ' ' :: d) = d :=
        dropWhile_indent d hdne hhead
      have hwsne : List.dropWhile isPySpace (' ' :: ' ' :: d) ≠ [] := by
        rw [hdw]
        exact hdne
      have hdemp : d.isEmpty = false := by
        cases hd : d with
        | nil => exact absurd hd hdne
        | cons a r => rfl
      cases href : isRefLine d with
      | true =>
        have hbarew : isBareKeywordLine (' ' :: ' ' :: d) = false := by
          rw [isBareKeywordLine_indent]
          exact isRefLine_not_bare d href
        have hnw : isNoiseLine (' ' :: ' ' :: d) = true := by
          rw [isNoiseLine_indent]
          exact href
        cases rest with
        | nil =>
          have hm := matchNoise_append (' ' :: ' ' :: d) [] hnlw hwsne
            hbarew (Or.inl rfl)
          rw [List.append_nil, hnw] at hm
          have hm2 : matchNoise (' ' :: ' ' :: d) = some [] := by
            rw [hm]
            rfl
          show stripLines (splitOnChar '\n'
              (subNoiseRun true (' ' :: ' ' :: d))) = renormDescs [d]
          rw [subNoiseRun_match _ [] (by simp) hm2, subNoiseRun_nil,
            renormDescs_ref d [] href]
          rfl
        | cons d2 rest2 =>
          have hm := matchNoise_append (' ' :: ' ' :: d)
            ('\n' :: joinLines ((d2 :: rest2).map (fun x => ' ' :: ' ' :: x)))
            hnlw hwsne hbarew (Or.inr ⟨_, rfl⟩)
          rw [hnw] at hm
          have hm2 : matchNoise ((' ' :: ' ' :: d) ++ '\n'
              :: joinLines ((d2 :: rest2).map (fun x => ' ' :: ' ' :: x)))
              = some ('\n'
                :: joinLines ((d2 :: rest2).map (fun x => ' ' :: ' ' :: x)))
              := by
            rw [hm]
            rfl
          show stripLines (splitOnChar '\n' (subNoiseRun true
              ((' ' :: ' ' :: d) ++ '\n'
                :: joinLines ((d2 :: rest2).map (fun x => ' ' :: ' ' :: x)))))
            = renormDescs (d :: d2 :: rest2)
          rw [subNoiseRun_match _ _ (by simp) hm2, subNoiseRun_newline,
            splitOnChar_cons_sep, renormDescs_ref d _ href]
          show stripLines (splitOnChar '\n' (subNoiseRun true
              (joinLines ((d2 :: rest2).map (fun x => ' ' :: ' ' :: x)))))
            = renormDescs (d2 :: rest2)
          exact ihn (d2 :: rest2) hlen2 h1t h2t h3t
      | false =>
        cases hbd : isBareKeywordLine d with
        | false =>
          have hnw : isNoiseLine (' ' :: ' ' :: d) = false := by
            rw [isNoiseLine_indent]
            exact href
          have hbarew : isBareKeywordLine (' ' :: ' ' :: d) = false := by
            rw [isBareKeywordLine_indent]
            exact hbd
          cases rest with
          | nil =>
            have hm := matchNoise_append (' ' :: ' ' :: d) [] hnlw hwsne
              hbarew (Or.inl rfl)
            rw [List.append_nil, hnw] at hm
            have hm2 : matchNoise (' ' :: ' ' :: d) = none := by
              rw [hm]
              rfl
            show stripLines (splitOnChar '\n'
                (subNoiseRun true (' ' :: ' ' :: d))) = renormDescs [d]
            rw [subNoiseRun_line_last _ hnlw hm2,
              splitOnChar_of_not_mem '\n' _ hnlw,
              stripLines_cons, htw, hdemp, renormDescs_keep d [] href hbd]
            rfl
          | cons d2 rest2 =>
            have hm := matchNoise_append (' ' :: ' ' :: d)
              ('\n' :: joinLines ((d2 :: rest2).map (fun x => ' ' :: ' ' :: x)))
              hnlw hwsne hbarew (Or.inr ⟨_, rfl⟩)
            rw [hnw] at hm
            have hm2 : matchNoise ((' ' :: ' ' :: d) ++ '\n'
                :: joinLines ((d2 :: rest2).map (fun x => ' ' :: ' ' :: x)))
                = none := by
              rw [hm]
              rfl
            show stripLines (splitOnChar '\n' (subNoiseRun true
                ((' ' :: ' ' :: d) ++ '\n'
                  :: joinLines ((d2 :: rest2).map (fun x => ' ' :: ' ' :: x)))))
              = renormDescs (d :: d2 :: rest2)
            rw [subNoiseRun_line_emit _ _ hnlw hm2,
              splitOnChar_append '\n' _ _ hnlw,
              stripLines_cons, htw, hdemp,
              ihn (d2 :: rest2) hlen2 h1t h2t h3t,
              renormDescs_keep d (d2 :: rest2) href hbd]
            rfl
        | true =>
          have hdd : List.dropWhile isPySpace d = d := by
            cases hd : d with
            | nil => exact absurd hd hdne
            | cons a r => exact dropWhile_cons_false isPySpace a r (hhead a r hd)
          have hbd2 : (match dropKeyword d with
              | some rb => rb.all isPySpace
              | none => false) = true := by
            have hx : isBareKeywordLine d = true := hbd
            unfold isBareKeywordLine at hx
            rw [hdd] at hx
            exact hx
          cases hdk : dropKeyword d with
          | none =>
            rw [hdk] at hbd2
            exact Bool.noConfusion hbd2
          | some rb =>
            rw [hdk] at hbd2
            have hrb : rb.all isPySpace = true := hbd2
            cases rest with
            | nil =>
              have hr1 : matchRef1 (' ' :: ' ' :: d) = none := by
                have hx := matchRef1_bare_start d [] rb hdne hhead hdk hrb
                rw [List.append_nil] at hx
                rw [hx]
                rfl
              have hco : matchCoAuth (' ' :: ' ' :: d) = none :=
                matchCoAuth_ws_start _ (Or.inr ⟨' ', ' ' :: d, rfl, rfl⟩)
              have hm2 := matchNoise_of_none _ hr1 hco
              show stripLines (splitOnChar '\n'
                  (subNoiseRun true (' ' :: ' ' :: d))) = renormDescs [d]
              rw [subNoiseRun_line_last _ hnlw hm2,
                splitOnChar_of_not_mem '\n' _ hnlw,
                stripLines_cons, htw, hdemp,
                renormDescs_bare_nil d href hbd]
              rfl
            | cons d2 rest2 =>
              have hd2ne : d2 ≠ [] := h1t d2 (List.mem_cons_self d2 rest2)
              have htrd2 : trimChars d2 = d2 :=
                h2t d2 (List.mem_cons_self d2 rest2)
              have hnld2 : '\n' ∉ d2 := h3t d2 (List.mem_cons_self d2 rest2)
              have hhead2 : ∀ a r, d2 = a :: r → isPySpace a = false :=
                fun a r hh => trimChars_head d2 a r (by rw [htrd2, hh])
              cases rest2 with
              | nil =>
                have hdw2 : List.dropWhile isPySpace
                    ('\n' :: joinLines ([d2].map (fun x => ' ' :: ' ' :: x)))
                    = d2 := by
                  cases hd2 : d2 with
                  | nil => exact absurd hd2 hd2ne
                  | cons a r =>
                    show List.dropWhile isPySpace (a :: r) = a :: r
                    exact dropWhile_cons_false isPySpace a r (hhead2 a r hd2)
                have hr1 : matchRef1 ((' ' :: ' ' :: d) ++ '\n'
                    :: joinLines ([d2].map (fun x => ' ' :: ' ' :: x)))
                    = matchHashTail d2 := by
                  rw [matchRef1_bare_start d _ rb hdne hhead hdk hrb, hdw2]
                have hmt := matchHashTail_append d2 [] hnld2 (Or.inl rfl)
                rw [List.append_nil] at hmt
                rw [hmt] at hr1
                cases hh : isHashNum d2 with
                | true =>
                  rw [hh] at hr1
                  have hr2 : matchRef1 ((' ' :: ' ' :: d) ++ '\n'
                      :: joinLines ([d2].map (fun x => ' ' :: ' ' :: x)))
                      = some [] := by
                    rw [hr1]
                    rfl
                  have hm2 := matchNoise_of_ref _ [] hr2
                  show stripLines (splitOnChar '\n' (subNoiseRun true
                      ((' ' :: ' ' :: d) ++ '\n'
                        :: joinLines ([d2].map (fun x => ' ' :: ' ' :: x)))))
                    = renormDescs [d, d2]
                  rw [subNoiseRun_match _ [] (by simp) hm2, subNoiseRun_nil,
                    renormDescs_bare_hash d d2 [] href hbd hh]
                  rfl
                | false =>
                  rw [hh] at hr1
                  have hr2 : matchRef1 ((' ' :: ' ' :: d) ++ '\n'
                      :: joinLines ([d2].map (fun x => ' ' :: ' ' :: x)))
                      = none := by
                    rw [hr1]
                    rfl
                  have hco : matchCoAuth ((' ' :: ' ' :: d) ++ '\n'
                      :: joinLines ([d2].map (fun x => ' ' :: ' ' :: x)))
                      = none :=
                    matchCoAuth_ws_start _ (Or.inr ⟨' ', _, rfl, rfl⟩)
                  have hm2 := matchNoise_of_none _ hr2 hco
                  show stripLines (splitOnChar '\n' (subNoiseRun true
                      ((' ' :: ' ' :: d) ++ '\n'
                        :: joinLines ([d2].map (fun x => ' ' :: ' ' :: x)))))
                    = renormDescs [d, d2]
                  rw [subNoiseRun_line_emit _ _ hnlw hm2,
                    splitOnChar_append '\n' _ _ hnlw,
                    stripLines_cons, htw, hdemp,
                    ihn [d2] hlen2 h1t h2t h3t,
                    renormDescs_bare_nohash d d2 [] href hbd hh]
                  rfl
              | cons d3 rest3 =>
                have hdw2 : List.dropWhile isPySpace ('\n' :: joinLines
                    ((d2 :: d3 :: rest3).map (fun x => ' ' :: ' ' :: x)))
                    = d2 ++ '\n'
                      :: joinLines ((d3 :: rest3).map (fun x => ' ' :: ' ' :: x))
                    := by
                  cases hd2 : d2 with
                  | nil => exact absurd hd2 hd2ne
                  | cons a r =>
                    show List.dropWhile isPySpace ((a :: r) ++ '\n'
                        :: joinLines ((d3 :: rest3).map (fun x => ' ' :: ' ' :: x)))
                      = (a :: r) ++ '\n'
                        :: joinLines ((d3 :: rest3).map (fun x => ' ' :: ' ' :: x))
                    rw [List.cons_append]
                    exact dropWhile_cons_false isPySpace a _ (hhead2 a r hd2)
                have hr1 : matchRef1 ((' ' :: ' ' :: d) ++ '\n' :: joinLines
                    ((d2 :: d3 :: rest3).map (fun x => ' ' :: ' ' :: x)))
                    = matchHashTail (d2 ++ '\n'
                      :: joinLines ((d3 :: rest3).map (fun x => ' ' :: ' ' :: x)))
                    := by
                  rw [matchRef1_bare_start d _ rb hdne hhead hdk hrb, hdw2]
                rw [matchHashTail_append d2 _ hnld2 (Or.inr ⟨_, rfl⟩)] at hr1
                have hlen3 : (d3 :: rest3).length ≤ n := by
                  simp only [List.length_cons] at hlen2 ⊢
                  omega
                have h1t3 : ∀ x ∈ d3 :: rest3, x ≠ [] :=
                  fun x hx => h1t x (List.mem_cons_of_mem d2 hx)
                have h2t3 : ∀ x ∈ d3 :: rest3, trimChars x = x :=
                  fun x hx => h2t x (List.mem_cons_of_mem d2 hx)
                have h3t3 : ∀ x ∈ d3 :: rest3, '\n' ∉ x :=
                  fun x hx => h3t x (List.mem_cons_of_mem d2 hx)
                cases hh : isHashNum d2 with
                | true =>
                  rw [hh] at hr1
                  have hr2 : matchRef1 ((' ' :: ' ' :: d) ++ '\n' :: joinLines
                      ((d2 :: d3 :: rest3).map (fun x => ' ' :: ' ' :: x)))
                      = some ('\n'
                        :: joinLines ((d3 :: rest3).map (fun x => ' ' :: ' ' :: x)))
                      := by
                    rw [hr1]
                    rfl
                  have hm2 := matchNoise_of_ref _ _ hr2
                  show stripLines (splitOnChar '\n' (subNoiseRun true
                      ((' ' :: ' ' :: d) ++ '\n' :: joinLines
                        ((d2 :: d3 :: rest3).map (fun x => ' ' :: ' ' :: x)))))
                    = renormDescs (d :: d2 :: d3 :: rest3)
                  rw [subNoiseRun_match _ _ (by simp) hm2,
                    subNoiseRun_newline, splitOnChar_cons_sep,
                    renormDescs_bare_hash d d2 (d3 :: rest3) href hbd hh]
                  show stripLines (splitOnChar '\n' (subNoiseRun true
                      (joinLines ((d3 :: rest3).map (fun x => ' ' :: ' ' :: x)))))
                    = renormDescs (d3 :: rest3)
                  exact ihn (d3 :: rest3) hlen3 h1t3 h2t3 h3t3
                | false =>
                  rw [hh] at hr1
                  have hr2 : matchRef1 ((' ' :: ' ' :: d) ++ '\n' :: joinLines
                      ((d2 :: d3 :: rest3).map (fun x => ' ' :: ' ' :: x)))
                      = none := by
                    rw [hr1]
                    rfl
                  have hco : matchCoAuth ((' ' :: ' ' :: d) ++ '\n' :: joinLines
                      ((d2 :: d3 :: rest3).map (fun x => ' ' :: ' ' :: x)))
                      = none :=
                    matchCoAuth_ws_start _ (Or.inr ⟨' ', _, rfl, rfl⟩)
                  have hm2 := matchNoise_of_none _ hr2 hco
                  show stripLines (splitOnChar '\n' (subNoiseRun true
                      ((' ' :: ' ' :: d) ++ '\n' :: joinLines
                        ((d2 :: d3 :: rest3).map (fun x => ' ' :: ' ' :: x)))))
                    = renormDescs (d :: d2 :: d3 :: rest3)
                  rw [subNoiseRun_line_emit _ _ hnlw hm2,
                    splitOnChar_append '\n' _ _ hnlw,
                    stripLines_cons, htw, hdemp,
                    ihn (d2 :: d3 :: rest3) hlen2 h1t h2t h3t,
                    renormDescs_bare_nohash d d2 (d3 :: rest3) href hbd hh]
                  rfl

/-- A second pass of the substitution over a rendered fragment: the
title line `"+ " ++ t` never matches (its first character blocks both
the whitespace and the anchored alternatives), and the description
block behaves as `renormDescs`. -/
theorem fragmentSurvivors (t : List Char) (ds : List (List Char))
    (htne : t ≠ []) (htr : trimChars t = t) (htnl : '\n' ∉ t)
    (h1 : ∀ d ∈ ds, d ≠ []) (h2 : ∀ d ∈ ds, trimChars d = d)
    (h3 : ∀ d ∈ ds, '\n' ∉ d) :
    survivingLines (render_fragment t ds)
      = ('+' :: ' ' :: t) :: renormDescs ds := by
  have hlast : ∀ a r, t.reverse = a :: r → isPySpace a = false :=
    fun a r hh => trimChars_last t a r (by rw [htr]; exact hh)
  have htw0 : trimChars ('+' :: ' ' :: t) = '+' :: ' ' :: t :=
    trim_title_line t htne hlast
  have hnlw0 : '\n' ∉ ('+' :: ' ' :: t) := by
    intro hm
    rcases List.mem_cons.mp hm with hcc | hm2
    · exact absurd hcc (by decide)
    · rcases List.mem_cons.mp hm2 with hcc | hcc
      · exact absurd hcc (by decide)
      · exact htnl hcc
  have hws0 : List.dropWhile isPySpace ('+' :: ' ' :: t) ≠ [] := by
    rw [show List.dropWhile isPySpace ('+' :: ' ' :: t)
      = '+' :: ' ' :: t from rfl]
    simp
  have hnw0 : isNoiseLine ('+' :: ' ' :: t) = false := isNoiseLine_title t
  have hbare0 : isBareKeywordLine ('+' :: ' ' :: t) = false :=
    isBareKeywordLine_title t
  cases ds with
  | nil =>
    have hm := matchNoise_append ('+' :: ' ' :: t) [] hnlw0 hws0 hbare0
      (Or.inl rfl)
    rw [List.append_nil, hnw0] at hm
    have hm2 : matchNoise ('+' :: ' ' :: t) = none := by
      rw [hm]
      rfl
    show stripLines (splitOnChar '\n'
        (subNoiseRun true ('+' :: ' ' :: t))) = [('+' :: ' ' :: t)]
    rw [subNoiseRun_line_last _ hnlw0 hm2,
      splitOnChar_of_not_mem '\n' _ hnlw0, stripLines_cons, htw0]
    rfl
  | cons d rest =>
    have hm := matchNoise_append ('+' :: ' ' :: t)
      ('\n' :: joinLines ((d :: rest).map (fun x => ' ' :: ' ' :: x)))
      hnlw0 hws0 hbare0 (Or.inr ⟨_, rfl⟩)
    rw [hnw0] at hm
    have hm2 : matchNoise (('+' :: ' ' :: t) ++ '\n'
        :: joinLines ((d :: rest).map (fun x => ' ' :: ' ' :: x)))
        = none := by
      rw [hm]
      rfl
    show stripLines (splitOnChar '\n' (subNoiseRun true
        (('+' :: ' ' :: t) ++ '\n'
          :: joinLines ((d :: rest).map (fun x => ' ' :: ' ' :: x)))))
      = ('+' :: ' ' :: t) :: renormDescs (d :: rest)
    rw [subNoiseRun_line_emit _ _ hnlw0 hm2,
      splitOnChar_append '\n' _ _ hnlw0, stripLines_cons, htw0,
      descScan (d :: rest).length (d :: rest) le_rfl h1 h2 h3]
    rfl

/- ------------------------------------------------------------------ -/
/- Claim theorems                                                     -/
/- ------------------------------------------------------------------ -/

/-- C1: `get_next_release` bumps exactly one component and zeroes the
lower-order ones for the three keywords, treats an absent current
version as `0.0.0`, and returns any other argument verbatim with no
validation against the current version. -/
theorem c1_get_next_release (cur : String) (v : SemVer)
    (h : parseVersion cur = some v) :
    get_next_release "major" (some cur)
        = some (SemVer.render ⟨v.major + 1, 0, 0⟩)
    ∧ get_next_release "minor" (some cur)
        = some (SemVer.render ⟨v.major, v.minor + 1, 0⟩)
    ∧ get_next_release "micro" (some cur)
        = some (SemVer.render ⟨v.major, v.minor, v.micro + 1⟩)
    ∧ get_next_release "major" none = some "1.0.0"
    ∧ get_next_release "minor" none = some "0.1.0"
    ∧ get_next_release "micro" none = some "0.0.1"
    ∧ (∀ r : String, r ≠ "major" → r ≠ "minor" → r ≠ "micro" →
        get_next_release r (some cur) = some r
        ∧ get_next_release r none = some r) := by
  have hcur : cur ≠ "" := by
    intro hc
    rw [hc] at h
    have hnone : parseVersion "" = none := rfl
    rw [hnone] at h
    exact Option.noConfusion h
  refine ⟨?_, ?_, ?_, by decide, by decide, by decide, ?_⟩
  · simp [get_next_release, hcur, h]
  · simp [get_next_release, hcur, h]
  · simp [get_next_release, hcur, h]
  · intro r h1 h2 h3
    constructor
    · simp [get_next_release, hcur, h, h1, h2, h3]
    · simp [get_next_release, h1, h2, h3]

/-- Witness for `c1_get_next_release` at the spec's example
`1.4.7` + `minor` → `1.5.0`, and an explicit override below current. -/
theorem c1_witness :
    get_next_release "minor" (some "1.4.7") = some "1.5.0"
    ∧ get_next_release "0.0.1" (some "1.4.7") = some "0.0.1" := by
  have h := c1_get_next_release "1.4.7" ⟨1, 4, 7⟩ (by decide)
  refine ⟨?_, (h.2.2.2.2.2.2 "0.0.1" (by decide) (by decide) (by decide)).1⟩
  have h2 := h.2.1
  rw [h2]
  decide

/-- C2: merging an entry into an (optional) changelog document: when the
entry's first line already occurs (as bytes) in the existing content the
document is unchanged and reported as already present; otherwise the
result is exactly the entry's bytes prepended to the old content; an
absent document behaves as the empty byte sequence, so the first merge
writes exactly the entry; and a second merge of the same entry leaves
the document unchanged. -/
theorem c2_update_changelog (c : List UInt8) (e : List Char) :
    (hasInfixBytes (utf8Encode (firstLine e)) c = true →
        update_changelog (some c) e = (c, true))
    ∧ (hasInfixBytes (utf8Encode (firstLine e)) c = false →
        update_changelog (some c) e = (utf8Encode e ++ c, false))
    ∧ update_changelog none e = update_changelog (some []) e
    ∧ (firstLine e ≠ [] → update_changelog none e = (utf8Encode e, false))
    ∧ (∀ c0 : Option (List UInt8),
        update_changelog (some (update_changelog c0 e).1) e
          = ((update_changelog c0 e).1, true)) := by
  have hsplit : firstLine e ++ e.dropWhile (fun c => c != '\n') = e :=
    List.takeWhile_append_dropWhile (fun c => c != '\n') e
  refine ⟨fun h => by simp [update_changelog, h],
          fun h => by simp [update_changelog, h], rfl, ?_, ?_⟩
  · intro h
    match hfl : firstLine e with
    | [] => exact absurd hfl h
    | a :: t =>
      have henc : utf8Encode (firstLine e)
          = String.utf8EncodeChar a ++ utf8Encode t := by
        rw [hfl]; rfl
      have hne : utf8Encode (firstLine e) ≠ [] := by
        rw [henc]
        intro hx
        exact utf8EncodeChar_ne_nil a (List.append_eq_nil.mp hx).1
      match hn : utf8Encode (firstLine e) with
      | [] => exact absurd hn hne
      | b :: bs => simp [update_changelog, hn, hasInfixBytes]
  · intro c0
    by_cases h : hasInfixBytes (utf8Encode (firstLine e)) (c0.getD []) = true
    · simp [update_changelog, h]
    · rw [Bool.not_eq_true] at h
      have h1 : update_changelog c0 e
          = (utf8Encode e ++ c0.getD [], false) := by
        simp [update_changelog, h]
      rw [h1]
      have he : utf8Encode e
          = utf8Encode (firstLine e)
            ++ utf8Encode (e.dropWhile (fun c => c != '\n')) := by
        rw [← utf8Encode_append, hsplit]
      have hmem : hasInfixBytes (utf8Encode (firstLine e))
          (utf8Encode e ++ c0.getD []) = true := by
        rw [he, List.append_assoc]
        exact hasInfixBytes_left _ _
      simp [update_changelog, hmem]

/-- Witness for `c2_update_changelog`: a fresh entry is prepended to
existing content, and a first merge into an absent document writes
exactly the entry. -/
theorem c2_witness :
    update_changelog (some (utf8Encode "## 1.0.0\n\n+ Old\n".data))
        "## 1.0.1\n\n+ New\n\n".data
      = (utf8Encode "## 1.0.1\n\n+ New\n\n".data
          ++ utf8Encode "## 1.0.0\n\n+ Old\n".data, false)
    ∧ update_changelog none "## 1.0.1\n\n+ New\n\n".data
      = (utf8Encode "## 1.0.1\n\n+ New\n\n".data, false) :=
  ⟨(c2_update_changelog (utf8Encode "## 1.0.0\n\n+ Old\n".data)
      "## 1.0.1\n\n+ New\n\n".data).2.1 (by decide),
   (c2_update_changelog [] "## 1.0.1\n\n+ New\n\n".data).2.2.2.1
      (by decide)⟩

/-- C3: the built header is the `"## {version}"` line (followed by a
blank line in the rendered entry), and the body is the concatenation of
the normalized fragments in exactly the order supplied, each terminated
by a newline; the author timestamps are never consulted, so commits are
not re-sorted by date. -/
theorem c3_build_changelog_entries (version : List Char)
    (commits : List Commit) (frags : List (List Char))
    (h : commits.mapM (fun c => build_message c.msg) = some frags) :
    build_changelog_entries version commits
      = some ((('#' :: '#' :: ' ' :: version) ++ ['\n']),
          (frags.map (fun fr => fr ++ ['\n'])).flatten)
    ∧ (∀ f : Commit → Int,
        build_changelog_entries version
            (commits.map (fun c => ⟨c.msg, f c⟩))
          = build_changelog_entries version commits)
    ∧ (∀ body : List Char,
        render_entry (('#' :: '#' :: ' ' :: version) ++ ['\n']) body
          = ('#' :: '#' :: ' ' :: version) ++ '\n' :: '\n' ::
              (body ++ ['\n'])) := by
  refine ⟨?_, ?_, ?_⟩
  · simp [build_changelog_entries, build_body_eq commits frags h]
  · intro f
    simp [build_changelog_entries, build_body_timestamps commits f]
  · intro body
    simp [render_entry]

/-- Witness for `c3_build_changelog_entries`: two commits where the one
inserted first carries the later author timestamp; its fragment still
comes first. -/
theorem c3_witness :
    build_changelog_entries "1.0.1".data
        [⟨"Second commit".data, 50⟩, ⟨"First commit".data, 10⟩]
      = some ("## 1.0.1\n".data, "+ Second commit\n+ First commit\n".data)
    := by
  have h := (c3_build_changelog_entries "1.0.1".data
      [⟨"Second commit".data, 50⟩, ⟨"First commit".data, 10⟩]
      ["+ Second commit".data, "+ First commit".data] (by decide)).1
  rw [h]
  decide

/-- C4 counterexample: the claim reads the noise regex line by line,
but the `\s*` between the keyword and `#` in the source pattern also
matches newlines.  On the raw message `"fixes\n#3"` neither line
matches the pattern within itself, so the claim keeps both lines and
yields `"+ fixes\n  #3"` (`normalize_spec`, the claim's words); the
program's regex matches across the newline, removes the whole message,
and `commit_msg[0]` raises `IndexError` (modelled `none`). -/
theorem c4_counterexample :
    normalize_spec ("fixes\n#3".data) = some ("+ fixes\n  #3".data)
      ∧ build_message ("fixes\n#3".data) = none :=
  ⟨by decide, by decide⟩

/-- C4 as amended: on a message none of whose lines strips to a bare
cross-reference keyword (optional whitespace, a keyword, then only
whitespace), no match of the source regex spans lines, and the program
agrees with the claim's line-by-line normalization: noise lines are
removed, the remaining lines are trimmed, empty lines are dropped, the
first surviving line is rendered `"+ {title}"` and the rest indented
by two spaces; in particular the claim's scenario `"commit\nFixes #18"`
yields exactly `"+ commit"`. -/
theorem c4_build_message :
    (∀ msg : List Char,
        (∀ l ∈ splitOnChar '\n' msg, isBareKeywordLine l = false) →
        build_message msg = normalize_spec msg)
      ∧ build_message ("commit\nFixes #18".data)
          = some ("+ commit".data) := by
  constructor
  · intro msg hb
    have hL := subNoise_lines (splitOnChar '\n' msg)
      (not_mem_splitOnChar '\n' msg) hb
    rw [joinLines_splitOnChar msg] at hL
    have hL2 : survivingLines msg
        = (((splitOnChar '\n' msg).filter (fun l => !isNoiseLine l)).map
            trimChars).filter (fun l => !l.isEmpty) := hL
    unfold build_message normalize_split normalize_spec
    rw [hL2]
    cases hC : (((splitOnChar '\n' msg).filter
        (fun l => !isNoiseLine l)).map trimChars).filter
        (fun l => !l.isEmpty) with
    | nil => rfl
    | cons t ds => rfl
  · decide

/-- C4 witness: the amended equivalence applied to a concrete message
with no bare-keyword line. -/
theorem c4_witness :
    build_message ("t\nDone #1".data) = normalize_spec ("t\nDone #1".data) :=
  c4_build_message.1 ("t\nDone #1".data) (by decide)

/-- C5 counterexample: on the non-empty raw message `"Fixes #18"`,
which is fully empty after noise-stripping, `build_message` raises an
`IndexError` (modelled `none`) instead of returning a fragment with an
empty title. -/
theorem c5_counterexample :
    "Fixes #18".data ≠ ([] : List Char)
    ∧ build_message "Fixes #18".data = none := ⟨by decide, by decide⟩

/-- C5 as amended: normalization returns a fragment (never fails) for
every message with at least one line surviving noise-stripping and
trimming; on a message fully empty after stripping it fails
(`commit_msg[0]` raises `IndexError`) rather than producing an
empty-title fragment. -/
theorem c5_build_message_total (msg : List Char)
    (h : survivingLines msg ≠ []) :
    (build_message msg).isSome = true := by
  cases hs : survivingLines msg with
  | nil => exact absurd hs h
  | cons t ds => simp [build_message, normalize_split, hs]

/-- Witness for `c5_build_message_total`. -/
theorem c5_witness :
    survivingLines "commit\nFixes #18".data ≠ []
    ∧ (build_message "commit\nFixes #18".data).isSome = true :=
  ⟨by decide, c5_build_message_total "commit\nFixes #18".data (by decide)⟩

/-- C6: when the reverse-ordered traversal is the unreleased commits
followed by the boundary (tag) commit at the tail, the selection drops
exactly that boundary commit and nothing else, preserving order. -/
theorem c6_unreleased_commits (commits : List Commit) (boundary : Commit) :
    unreleased_commits (commits ++ [boundary]) = some commits := by
  cases commits with
  | nil => rfl
  | cons c cs =>
    show some (((c :: cs) ++ [boundary]).dropLast) = some (c :: cs)
    rw [List.dropLast_concat]

/-- C7 counterexample: in a directory that is not a git repository,
`Repo()` itself raises `InvalidGitRepositoryError`, which is not a
`FarmError`: the run exits 2 with full diagnostics, not 1 with a
single line as the claim states for the not-a-repository case. -/
theorem c7_counterexample :
    _main_exit ⟨false, false, false, []⟩ false none = (2, false) := by
  decide

/-- C7 as amended: the dirty-tree and untracked-files preconditions
(and the bare-repository case, which the code labels "not a git
repository") are detected before `main` runs and exit 1 with a
single-line message; but a directory that is not a git repository at
all fails at `Repo()` construction with `InvalidGitRepositoryError`,
outside the `FarmError` taxonomy, and exits 2 (with full diagnostics)
before `main` runs; a successful run exits 0; any other error outside
the taxonomy exits 2. -/
theorem c7_exit_codes (repo : RepoState) (allow : Bool)
    (outcome : Option Exc) :
    (repo.isRepo = false → _main_exit repo allow outcome = (2, false))
    ∧ (∀ k, repo.isRepo = true → precheck repo allow = some k →
        _main_exit repo allow outcome = (1, false)
        ∧ '\n' ∉ k.message.data)
    ∧ (repo.isRepo = true → precheck repo allow = none → outcome = none →
        _main_exit repo allow outcome = (0, true))
    ∧ (∀ e, repo.isRepo = true → precheck repo allow = none →
        outcome = some e → is_farm_error e = false →
        _main_exit repo allow outcome = (2, true)) := by
  refine ⟨?_, ?_, ?_, ?_⟩
  · intro hr
    simp [_main_exit, hr]
  · intro k hr hk
    refine ⟨by simp [_main_exit, hr, hk], ?_⟩
    cases k <;> decide
  · intro hr h1 h2
    subst h2
    simp [_main_exit, hr, h1]
  · intro e hr h1 h2 hf
    subst h2
    simp [_main_exit, hr, h1, hf]

/-- Witness for `c7_exit_codes`: a dirty tree exits 1 without running
`main`; a clean run exits 0; an unexpected error exits 2. -/
theorem c7_witness :
    _main_exit ⟨true, false, true, []⟩ false none = (1, false)
    ∧ _main_exit ⟨true, false, false, []⟩ false none = (0, true)
    ∧ _main_exit ⟨true, false, false, []⟩ false (some Exc.other)
        = (2, true) :=
  ⟨((c7_exit_codes ⟨true, false, true, []⟩ false none).2.1
      FarmErrKind.dirtyRepo rfl (by decide)).1,
   (c7_exit_codes ⟨true, false, false, []⟩ false none).2.2.1 rfl
      (by decide) rfl,
   (c7_exit_codes ⟨true, false, false, []⟩ false (some Exc.other)).2.2.2
      Exc.other rfl (by decide) rfl (by decide)⟩

/-- C8 counterexample: a release argument that is neither a bump
keyword nor a well-formed version is *accepted verbatim* by
`get_next_release` — no version-format error is raised and no
validation happens. -/
theorem c8_counterexample :
    parseVersion "not-a-version" = none
    ∧ get_next_release "not-a-version" (some "1.0.0")
        = some "not-a-version" := ⟨by decide, by decide⟩

/-- C8 as amended: a malformed *explicit version argument* is returned
verbatim with no validation and raises nothing; a current tag that is
certainly un-parseable — it contains a character outside the PEP 440
alphabet, such as an embedded space — raises the distinct
`InvalidVersion` error, which is not silently defaulted, but as it is
outside the `FarmError` taxonomy it surfaces as an unexpected error
with exit code 2 and full diagnostics, not as a clean one-line
message. -/
theorem c8_version_format (r s : String)
    (hchar : hasNonPep440Char s = true) :
    get_next_release r (some s) = none
    ∧ is_farm_error Exc.invalidVersion = false
    ∧ (∀ (repo : RepoState) (allow : Bool), repo.isRepo = true →
        precheck repo allow = none →
        _main_exit repo allow (some Exc.invalidVersion) = (2, true)) := by
  have hp : parseVersion s = none := hasNonPep440Char_parseVersion s hchar
  have hs : s ≠ "" := by
    intro he
    rw [he] at hchar
    exact absurd hchar (by decide)
  refine ⟨?_, rfl, ?_⟩
  · simp [get_next_release, hs, hp]
  · intro repo allow hr h
    simp [_main_exit, hr, h, is_farm_error]

/-- Witness for `c8_version_format` at the un-parseable tag
`"1.0 beta"` (embedded space). -/
theorem c8_witness :
    get_next_release "micro" (some "1.0 beta") = none :=
  (c8_version_format "micro" "1.0 beta" (by decide)).1

/-- C9 counterexample: normalization is not idempotent on its own
output.  The raw message `"t\nfixes #3 "` normalizes to the fragment
`"+ t\n  fixes #3"` (the trailing space makes the reference line fail
the `$` anchor on the first pass) with title/description split
`("t", ["fixes #3"])`; re-normalizing that output trims the line, so
the reference now matches and is dropped, and the old title line keeps
its marker: the new split is `("+ t", [])`, differing from the first
in both title and descriptions. -/
theorem c9_counterexample :
    build_message ("t\nfixes #3 ".data) = some ("+ t\n  fixes #3".data)
      ∧ normalize_split ("t\nfixes #3 ".data)
          = some ("t".data, ["fixes #3".data])
      ∧ normalize_split ("+ t\n  fixes #3".data) = some ("+ t".data, []) :=
  ⟨by decide, by decide, by decide⟩

/-- C9 as amended: re-normalizing a rendered fragment (title `t`,
description lines `ds`, each trimmed, nonempty and newline-free, as
`build_message` produces them) yields the split whose title is the
previously rendered title line `"+ " ++ t` (the marker is not special
to the second pass, which will prepend another one) and whose
descriptions are `renormDescs ds`: description lines that match the
reference pattern after the first pass's trimming are dropped, as is a
bare-keyword line together with a following `#digits` line; the split
is preserved exactly when no description line has become noise. -/
theorem c9_renormalize (t : List Char) (ds : List (List Char))
    (htne : t ≠ []) (htr : trimChars t = t) (htnl : '\n' ∉ t)
    (h1 : ∀ d ∈ ds, d ≠ []) (h2 : ∀ d ∈ ds, trimChars d = d)
    (h3 : ∀ d ∈ ds, '\n' ∉ d) :
    normalize_split (render_fragment t ds)
      = some ('+' :: ' ' :: t, renormDescs ds) := by
  unfold normalize_split
  rw [fragmentSurvivors t ds htne htr htnl h1 h2 h3]

/-- C9 witness: the amended renormalization applied to the fragment
with title `"d"` and description lines `["closes", "#7"]`, a pair the
second pass removes entirely. -/
theorem c9_witness :
    normalize_split (render_fragment ("d".data) ["closes".data, "#7".data])
      = some ('+' :: ' ' :: "d".data,
          renormDescs ["closes".data, "#7".data]) :=
  c9_renormalize ("d".data) ["closes".data, "#7".data] (by decide)
    (by decide) (by decide) (by decide) (by decide) (by decide)

/-- C10: with `--dry-run` the trace still fetches, creates (or reuses)
and checks out `release/{version}` before the dry-run check prints the
preview; the changelog is never written, nothing is committed or
pushed, no branch is deleted, and the final action restores the
previously checked-out branch, leaving the release branch behind. -/
theorem c10_dry_run_frame (version : String) (branchExists upToDate : Bool) :
    _main_effects true version branchExists upToDate
      = (Effect.fetch ::
          (if branchExists
           then [Effect.reuseBranch ("release/" ++ version)]
           else [Effect.createBranch ("release/" ++ version)])) ++
          [Effect.checkoutBranch ("release/" ++ version),
           Effect.printPreview, Effect.checkoutPrevious]
    ∧ Effect.writeChangelog ∉ _main_effects true version branchExists upToDate
    ∧ Effect.commitChangelog ∉ _main_effects true version branchExists upToDate
    ∧ Effect.pushBranch ∉ _main_effects true version branchExists upToDate
    ∧ Effect.checkoutBranch ("release/" ++ version)
        ∈ _main_effects true version branchExists upToDate
    ∧ (∀ n, Effect.deleteBranch n
        ∉ _main_effects true version branchExists upToDate)
    ∧ (_main_effects true version branchExists upToDate).getLast?
        = some Effect.checkoutPrevious := by
  cases branchExists <;>
    simp [_main_effects, main_effects, create_release_branch]
